import Mathlib

/-!
Verification of the partial digest reconstruction program
(`partial_digest.py`).  The Python functions are shallowly embedded:
dictionaries `dict[int, int]` become insertion-ordered association lists
`List (Int × Int)`, the explicit `deque` stack of `find_solution` becomes a
`List` of stack entries processed head-first, and the unbounded `while`
loop becomes a fuel-indexed loop whose `outOfFuel` outcome is separated
from the program's genuine results.  Python exceptions that the code can
raise inside `find_solution` (`max()` on an empty dict, `KeyError` on a
missing key) are modelled by an explicit `error` outcome.
-/

/-- Association-list model of a Python `dict[int, int]` in insertion order. -/
abbrev Counts := List (Int × Int)

/-- Model of `d[k]` lookup / `k in d`: value at the first occurrence of key `k`. -/
def getVal? : Counts → Int → Option Int
  | [], _ => none
  | kv :: rest, key => if kv.1 = key then some kv.2 else getVal? rest key

/-- Model of `d[k] = v` for a key already present: overwrite the first
occurrence of `k`; a list without `k` is returned unchanged. -/
def setVal : Counts → Int → Int → Counts
  | [], _, _ => []
  | kv :: rest, key, v => if kv.1 = key then (key, v) :: rest else kv :: setVal rest key v

/-- Embedding of `calculate_distances(pt, points)`:
`[abs(p - pt) for p in points]`. -/
def calculate_distances (pt : Int) (points : List Int) : List Int :=
  points.map (fun p => |p - pt|)

/-- Embedding of `can_remove_distances(dist_to_remove, dist_counts)`: walk the
batch, decrementing a temporary copy, failing when a distance is absent or its
remaining count is `<= 0`. -/
def can_remove_distances (dist_to_remove : List Int) (dist_counts : Counts) : Bool :=
  match dist_to_remove with
  | [] => true
  | d :: ds =>
    match getVal? dist_counts d with
    | none => false
    | some v => if v ≤ 0 then false else can_remove_distances ds (setVal dist_counts d (v - 1))

/-- One iteration of the loop body of `create_distance_counts`: increment the
count of `d`, inserting a fresh key (at the end, as Python dicts do) when absent. -/
def addDist (counts : Counts) (d : Int) : Counts :=
  match getVal? counts d with
  | some v => setVal counts d (v + 1)
  | none => counts ++ [(d, 1)]

/-- Embedding of `create_distance_counts(distances)`. -/
def create_distance_counts (distances : List Int) : Counts :=
  distances.foldl addDist []

/-- Model of `sum(d.values())`. -/
def sumValues : Counts → Int
  | [] => 0
  | kv :: rest => kv.2 + sumValues rest

/-- Model of Python `max` on a list of integers (`none` on the empty list,
where Python raises `ValueError`). -/
def listMax? : List Int → Option Int
  | [] => none
  | x :: xs => some (xs.foldl max x)

/-- Model of `max(d.keys())`. -/
def maxKey? (c : Counts) : Option Int :=
  listMax? (c.map Prod.fst)

/-- Model of the loop `for dist in ds: d[dist] -= 1` over a dict copy:
`none` models the `KeyError` raised when some `dist` is not a key. -/
def decAll? : Counts → List Int → Option Counts
  | c, [] => some c
  | c, d :: ds =>
    match getVal? c d with
    | none => none
    | some v => decAll? (setVal c d (v - 1)) ds

/-- Model of the comprehension `{k: v for k, v in d.items() if v > 0}`. -/
def filterPos (c : Counts) : Counts :=
  c.filter (fun kv => decide (0 < kv.2))

/-- Model of Python `sorted` on integers. -/
def sortInts (l : List Int) : List Int :=
  List.insertionSort (· ≤ ·) l

/-- One candidate block of `find_solution` (lines 98-112 resp. 114-128):
the entries this candidate pushes onto the stack (`[]` when pruned), with
`none` modelling an uncaught `KeyError` during the decrement loop. -/
def tryCandidate (counts : Counts) (points : List Int) (cand : Int) :
    Option (List (Counts × List Int)) :=
  if can_remove_distances (calculate_distances cand points) counts then
    match decAll? counts (calculate_distances cand points) with
    | none => none
    | some c2 =>
      if cand ∈ points then some []
      else some [(filterPos c2, points ++ [cand])]
  else some []

/-- The branching part of one iteration of `find_solution`'s `while` loop:
the list of entries pushed (in push order: candidate 1 first), or `none` when
the iteration raises (`max()` on an empty dict, or a `KeyError`). -/
def stepEntry (width : Int) (currCounts : Counts) (currPoints : List Int) :
    Option (List (Counts × List Int)) :=
  match maxKey? currCounts with
  | none => none
  | some maxDist =>
    match tryCandidate currCounts currPoints maxDist with
    | none => none
    | some p1 =>
      match tryCandidate currCounts currPoints (width - maxDist) with
      | none => none
      | some p2 => some (p1 ++ p2)

/-- Observable outcomes of `find_solution` / `partial_digest`: a returned
point list, the Python `None` result, an uncaught exception, or exhaustion of
the fuel bounding the loop in this embedding. -/
inductive SearchOutcome where
  | found (ps : List Int)
  | noSolution
  | error
  | outOfFuel
deriving DecidableEq, Repr

/-- Result of one iteration of the `while` loop: either the loop terminates
with an outcome, or continues with a new stack. -/
inductive StepRes where
  | halt (out : SearchOutcome)
  | next (stack : List (Counts × List Int))
deriving DecidableEq, Repr

/-- One full iteration of `find_solution`'s `while` loop.  The Python `deque`
with `append`/`pop` is a LIFO stack; the head of the list is its top, so the
two pushes of an iteration appear reversed in front of the remaining stack. -/
def loopStep (width : Int) : List (Counts × List Int) → StepRes
  | [] => .halt .noSolution
  | (currCounts, currPoints) :: rest =>
    if sumValues currCounts = 0 then .halt (.found (sortInts currPoints))
    else
      match stepEntry width currCounts currPoints with
      | none => .halt .error
      | some pushes => .next (pushes.reverse ++ rest)

/-- The `while` loop of `find_solution`, indexed by fuel. -/
def find_solution_loop (width : Int) : Nat → List (Counts × List Int) → SearchOutcome
  | 0, _ => .outOfFuel
  | fuel + 1, stack =>
    match loopStep width stack with
    | .halt out => out
    | .next stack2 => find_solution_loop width fuel stack2

/-- Embedding of `find_solution(width, distances, points)`. -/
def find_solution (width : Int) (fuel : Nat) (distances : List Int) (points : List Int) :
    SearchOutcome :=
  find_solution_loop width fuel [(create_distance_counts distances, points)]

/-- The initialization performed by `partial_digest` (lines 143-148): `none`
on empty input, otherwise the width, the filtered fragment list
`[d for d in fragment_lengths if d != width]`, and the starter points
`[0, width]` handed to `find_solution`. -/
def digestInit (fragment_lengths : List Int) : Option (Int × List Int × List Int) :=
  match listMax? fragment_lengths with
  | none => none
  | some width => some (width, fragment_lengths.filter (fun d => decide (d ≠ width)), [0, width])

/-- Embedding of `partial_digest(fragment_lengths)` (the guard
`if not fragment_lengths` coincides with `listMax?` returning `none`). -/
def partial_digest (fuel : Nat) (fragment_lengths : List Int) : SearchOutcome :=
  match digestInit fragment_lengths with
  | none => .noSolution
  | some (width, ds, pts) => find_solution width fuel ds pts

/-- The nested loops of `all_pairwise_distances` over an already sorted list:
for each point, its distances to all later points. -/
def pairsDists : List Int → List Int
  | [] => []
  | p :: rest => calculate_distances p rest ++ pairsDists rest

/-- Embedding of `all_pairwise_distances(points)`. -/
def all_pairwise_distances (points : List Int) : List Int :=
  sortInts (pairsDists (sortInts points))

/-- All distances between a point of the first list and a point of the second
(used to state the search invariants; not part of the Python source). -/
def crossDists : List Int → List Int → List Int
  | [], _ => []
  | p :: q, cp => calculate_distances p cp ++ crossDists q cp

/-- The multiset of distances represented by a counts dictionary. -/
def toMultiset : Counts → Multiset Int
  | [] => 0
  | kv :: rest => Multiset.replicate kv.2.toNat kv.1 + toMultiset rest

/-- Every stored count is strictly positive (the dictionary invariant of the
spec's Distance Multiset Manager). -/
def posVals (c : Counts) : Prop := ∀ kv ∈ c, 0 < kv.2

/-- The keys of a counts dictionary are distinct (true of every Python dict). -/
def keysNodup (c : Counts) : Prop := (c.map Prod.fst).Nodup

/-- The point-set invariant: both endpoints present and no duplicates. -/
def PtsInv (width : Int) (pts : List Int) : Prop :=
  0 ∈ pts ∧ width ∈ pts ∧ pts.Nodup

instance (c : Counts) : Decidable (posVals c) :=
  inferInstanceAs (Decidable (∀ kv ∈ c, 0 < kv.2))

instance (width : Int) (pts : List Int) : Decidable (PtsInv width pts) :=
  inferInstanceAs (Decidable (0 ∈ pts ∧ width ∈ pts ∧ pts.Nodup))

/-- A stack entry is viable when its remaining distance multiset is exactly
what some set `q` of not-yet-placed points in `[0, width]` would still have to
explain: the distances within `q` plus the distances from `q` to the placed
points. -/
def Viable (width : Int) (cc : Counts) (cp : List Int) : Prop :=
  posVals cc ∧ keysNodup cc ∧ 0 ∈ cp ∧ width ∈ cp ∧ (∀ x ∈ cp, 0 ≤ x ∧ x ≤ width) ∧
  ∃ q : List Int, q.Nodup ∧ (∀ x ∈ q, x ∉ cp ∧ 0 ≤ x ∧ x ≤ width) ∧
    toMultiset cc = Multiset.ofList (pairsDists q) + Multiset.ofList (crossDists q cp)

/-- Termination potential of one stack entry. -/
def entryPhi (e : Counts × List Int) : Nat := 3 ^ (sumValues e.1).toNat

/-- Termination potential of a stack. -/
def stackPhi : List (Counts × List Int) → Nat
  | [] => 0
  | e :: rest => entryPhi e + stackPhi rest

/-- Soundness invariant of a stack entry: counts are positive with distinct
keys, and together with the pairwise distances of the placed points they make
up the original distance multiset `D`. -/
def EntrySound (D : Multiset Int) (e : Counts × List Int) : Prop :=
  posVals e.1 ∧ keysNodup e.1 ∧ toMultiset e.1 + Multiset.ofList (pairsDists e.2) = D

/-- The ASCII whitespace characters stripped by Python's `str.strip()`:
exactly the ASCII characters for which Python's `str.isspace()` is true,
namely tab through carriage return (`\x09`-`\x0d`), the separator control
characters `\x1c`-`\x1f`, and the space. -/
def isPySpace (c : Char) : Bool :=
  c = ' ' || c = '\t' || c = '\n' || c = '\x0d' || c = '\x0b' || c = '\x0c' ||
  c = '\x1c' || c = '\x1d' || c = '\x1e' || c = '\x1f'

/-- Model of `s.strip()` restricted to ASCII input: remove leading and
trailing whitespace (non-ASCII whitespace, which Python also strips, is
outside this model). -/
def pyStrip (cs : List Char) : List Char :=
  ((cs.dropWhile isPySpace).reverse.dropWhile isPySpace).reverse

/-- Helper for `splitComma`, accumulating the current token reversed. -/
def splitCommaAux (cur : List Char) : List Char → List (List Char)
  | [] => [cur.reverse]
  | c :: rest => if c = ',' then cur.reverse :: splitCommaAux [] rest else splitCommaAux (c :: cur) rest

/-- Model of `s.split(',')` (empty tokens are kept, as in Python). -/
def splitComma (cs : List Char) : List (List Char) :=
  splitCommaAux [] cs

/-- Digits of an integer literal after its first digit: decimal digits with
single underscores allowed between digits, as Python's `int` accepts. -/
def digitsTail (acc : Nat) : List Char → Option Nat
  | [] => some acc
  | c :: rest =>
    if c = '_' then
      match rest with
      | [] => none
      | c2 :: rest2 => if c2.isDigit then digitsTail (acc * 10 + (c2.toNat - 48)) rest2 else none
    else if c.isDigit then digitsTail (acc * 10 + (c.toNat - 48)) rest
    else none

/-- A nonempty run of decimal digits (with legal underscores), as a number. -/
def parseDigits : List Char → Option Nat
  | [] => none
  | c :: rest => if c.isDigit then digitsTail (c.toNat - 48) rest else none

/-- Model of Python `int(s)` on an already stripped ASCII string: optional
sign followed by decimal digits with legal underscores; `none` models the
`ValueError`.  Non-ASCII numerals, which Python's `int` also accepts, are
outside this model, so theorems about the parser carry an ASCII scope
hypothesis. -/
def pyIntCore (cs : List Char) : Option Int :=
  match cs with
  | '+' :: rest => (parseDigits rest).map (fun n => (n : Int))
  | '-' :: rest => (parseDigits rest).map (fun n => -(n : Int))
  | _ => (parseDigits cs).map (fun n => (n : Int))

/-- The comprehension `[int(x.strip()) for x in toks]`: `none` as soon as one
token fails to parse, modelling the caught `ValueError`. -/
def tryMapTokens : List (List Char) → Option (List Int)
  | [] => some []
  | t :: ts =>
    match pyIntCore (pyStrip t) with
    | none => none
    | some v =>
      match tryMapTokens ts with
      | none => none
      | some vs => some (v :: vs)

/-- The slice `input_str.strip()[1:-1]`: the characters strictly between the
first and last characters of the stripped input (slicing never raises and
checks nothing about the removed characters). -/
def pyInterior (input_str : String) : List Char :=
  ((pyStrip input_str.data).drop 1).dropLast

/-- Embedding of `extract_array_from_input(input_str)` for ASCII input: strip
whitespace, cut off the first and last characters, return `[]` for empty
content, otherwise parse the comma-separated tokens, `none` on any failure. -/
def extract_array_from_input (input_str : String) : Option (List Int) :=
  if pyInterior input_str = [] then some []
  else tryMapTokens (splitComma (pyInterior input_str))

/-! ### Association-list lemmas -/

theorem keys_setVal (c : Counts) (k w : Int) :
    (setVal c k w).map Prod.fst = c.map Prod.fst := by
  induction c with
  | nil => rfl
  | cons kv rest ih =>
    by_cases h : kv.1 = k <;> simp [setVal, h, ih]

theorem mem_setVal {c : Counts} {k w : Int} {kv : Int × Int} (h : kv ∈ setVal c k w) :
    kv = (k, w) ∨ kv ∈ c := by
  induction c with
  | nil => simp [setVal] at h
  | cons kv0 rest ih =>
    by_cases h0 : kv0.1 = k
    · simp [setVal, h0] at h
      rcases h with h | h
      · exact Or.inl h
      · exact Or.inr (List.mem_cons_of_mem _ h)
    · simp [setVal, h0] at h
      rcases h with h | h
      · exact Or.inr (by simp [h])
      · rcases ih h with h1 | h1
        · exact Or.inl h1
        · exact Or.inr (List.mem_cons_of_mem _ h1)

theorem getVal?_setVal (c : Counts) (k w x : Int) :
    getVal? (setVal c k w) x =
      if x = k then (getVal? c k).map (fun _ => w) else getVal? c x := by
  induction c with
  | nil => by_cases h : x = k <;> simp [setVal, getVal?, h]
  | cons kv rest ih =>
    by_cases h1 : kv.1 = k
    · subst h1
      by_cases h2 : x = kv.1
      · subst h2; simp [setVal, getVal?]
      · have h2s : ¬(kv.1 = x) := fun hh => h2 hh.symm
        simp [setVal, getVal?, h2, h2s]
    · by_cases h2 : x = k
      · subst h2
        simp [setVal, getVal?, h1, ih]
      · by_cases h3 : kv.1 = x
        · simp [setVal, getVal?, h1, h2, h3]
        · simp [setVal, getVal?, h1, h2, h3, ih]

theorem sumValues_setVal {c : Counts} {k v : Int} (w : Int) (h : getVal? c k = some v) :
    sumValues (setVal c k w) = sumValues c - v + w := by
  induction c with
  | nil => simp [getVal?] at h
  | cons kv rest ih =>
    by_cases h1 : kv.1 = k
    · simp [getVal?, h1] at h
      simp [setVal, h1, sumValues, h]
      ring
    · simp [getVal?, h1] at h
      simp [setVal, h1, sumValues, ih h]
      ring

theorem mem_toMultiset_of_getVal {c : Counts} {k v : Int}
    (h : getVal? c k = some v) (hv : 0 < v) : k ∈ toMultiset c := by
  induction c with
  | nil => simp [getVal?] at h
  | cons kv rest ih =>
    by_cases h1 : kv.1 = k
    · simp [getVal?, h1] at h
      simp only [toMultiset, Multiset.mem_add]
      left
      rw [Multiset.mem_replicate]
      subst h
      exact ⟨by omega, h1.symm⟩
    · simp [getVal?, h1] at h
      simp only [toMultiset, Multiset.mem_add]
      exact Or.inr (ih h)

theorem mem_toMultiset {c : Counts} {x : Int} (h : x ∈ toMultiset c) :
    ∃ kv ∈ c, kv.1 = x ∧ 0 < kv.2 := by
  induction c with
  | nil => simp [toMultiset] at h
  | cons kv rest ih =>
    simp [toMultiset] at h
    rcases h with h | h
    · rcases Multiset.eq_of_mem_replicate h with rfl
      refine ⟨kv, List.mem_cons_self _ _, rfl, ?_⟩
      have := Multiset.mem_replicate.1 h
      omega
    · rcases ih h with ⟨kv2, hm, he, hp⟩
      exact ⟨kv2, List.mem_cons_of_mem _ hm, he, hp⟩

theorem count_toMultiset_of_none {c : Counts} {x : Int} (h : getVal? c x = none) :
    Multiset.count x (toMultiset c) = 0 := by
  induction c with
  | nil => simp [toMultiset]
  | cons kv rest ih =>
    by_cases h1 : kv.1 = x
    · simp [getVal?, h1] at h
    · simp [getVal?, h1] at h
      simp [toMultiset, Multiset.count_replicate, h1, ih h]

theorem toMultiset_setVal_dec {c : Counts} {k v : Int}
    (h : getVal? c k = some v) (hv : 0 < v) :
    toMultiset (setVal c k (v - 1)) = toMultiset c - {k} := by
  induction c with
  | nil => simp [getVal?] at h
  | cons kv rest ih =>
    by_cases h1 : kv.1 = k
    · simp [getVal?, h1] at h
      subst h1
      simp only [setVal, if_pos]
      simp only [toMultiset]
      subst h
      have hrep : kv.2.toNat = (kv.2 - 1).toNat + 1 := by omega
      rw [hrep, Multiset.replicate_succ, Multiset.sub_singleton, Multiset.cons_add,
        Multiset.erase_cons_head]
    · simp [getVal?, h1] at h
      simp only [setVal, if_neg h1, toMultiset, ih h]
      have hk : k ∈ toMultiset rest := mem_toMultiset_of_getVal h hv
      rw [Multiset.sub_singleton, Multiset.sub_singleton,
        Multiset.erase_add_right_pos _ hk]

theorem toMultiset_setVal_inc {c : Counts} {k v : Int}
    (h : getVal? c k = some v) (hv : 0 ≤ v) :
    toMultiset (setVal c k (v + 1)) = toMultiset c + {k} := by
  induction c with
  | nil => simp [getVal?] at h
  | cons kv rest ih =>
    by_cases h1 : kv.1 = k
    · simp [getVal?, h1] at h
      subst h1
      simp only [setVal, if_pos]
      simp only [toMultiset]
      subst h
      have hrep : (kv.2 + 1).toNat = kv.2.toNat + 1 := by omega
      rw [hrep, Multiset.replicate_succ, Multiset.cons_add,
        add_comm (Multiset.replicate kv.2.toNat kv.1 + toMultiset rest) ({kv.1} : Multiset Int),
        Multiset.singleton_add]
    · simp [getVal?, h1] at h
      simp only [setVal, if_neg h1, toMultiset, ih h]
      rw [add_assoc]

theorem mem_keys_of_getVal {c : Counts} {x v : Int} (h : getVal? c x = some v) :
    x ∈ c.map Prod.fst := by
  induction c with
  | nil => simp [getVal?] at h
  | cons kv rest ih =>
    by_cases h1 : kv.1 = x
    · simp [h1]
    · simp [getVal?, h1] at h
      simp only [List.map_cons, List.mem_cons]
      exact Or.inr (ih h)

theorem count_toMultiset {c : Counts} (hn : keysNodup c) (x : Int) :
    Multiset.count x (toMultiset c) = ((getVal? c x).map Int.toNat).getD 0 := by
  induction c with
  | nil => simp [toMultiset, getVal?]
  | cons kv rest ih =>
    simp only [keysNodup, List.map_cons, List.nodup_cons] at hn
    simp only [toMultiset, Multiset.count_add, Multiset.count_replicate]
    by_cases h1 : kv.1 = x
    · have hrest : getVal? rest x = none := by
        rcases hx : getVal? rest x with _ | v
        · rfl
        · exact absurd (h1 ▸ mem_keys_of_getVal hx) hn.1
      rw [count_toMultiset_of_none hrest, if_pos h1]
      simp [getVal?, h1]
    · rw [if_neg h1, ih hn.2]
      simp [getVal?, h1]

theorem posVals_filterPos (c : Counts) : posVals (filterPos c) := by
  intro kv h
  have := List.of_mem_filter h
  simpa using this

theorem toMultiset_filterPos {c : Counts} (h : ∀ kv ∈ c, 0 ≤ kv.2) :
    toMultiset (filterPos c) = toMultiset c := by
  induction c with
  | nil => rfl
  | cons kv rest ih =>
    have h2 : ∀ kv ∈ rest, 0 ≤ kv.2 := fun kv2 hm => h kv2 (List.mem_cons_of_mem _ hm)
    have hrec := ih h2
    by_cases hp : 0 < kv.2
    · have hf : filterPos (kv :: rest) = kv :: filterPos rest := by
        simp [filterPos, List.filter_cons, hp]
      rw [hf]
      simp only [toMultiset]
      rw [hrec]
    · have h0 : kv.2 = 0 := le_antisymm (not_lt.1 hp) (h kv (List.mem_cons_self _ _))
      have hf : filterPos (kv :: rest) = filterPos rest := by
        simp [filterPos, List.filter_cons, h0]
      rw [hf, hrec]
      simp [toMultiset, h0]

theorem sumValues_filterPos {c : Counts} (h : ∀ kv ∈ c, 0 ≤ kv.2) :
    sumValues (filterPos c) = sumValues c := by
  induction c with
  | nil => rfl
  | cons kv rest ih =>
    have h2 : ∀ kv ∈ rest, 0 ≤ kv.2 := fun kv2 hm => h kv2 (List.mem_cons_of_mem _ hm)
    have hrec := ih h2
    by_cases hp : 0 < kv.2
    · have hf : filterPos (kv :: rest) = kv :: filterPos rest := by
        simp [filterPos, List.filter_cons, hp]
      rw [hf]
      simp only [sumValues]
      rw [hrec]
    · have h0 : kv.2 = 0 := le_antisymm (not_lt.1 hp) (h kv (List.mem_cons_self _ _))
      have hf : filterPos (kv :: rest) = filterPos rest := by
        simp [filterPos, List.filter_cons, h0]
      rw [hf, hrec]
      simp only [sumValues]
      omega

theorem keysNodup_filterPos {c : Counts} (h : keysNodup c) : keysNodup (filterPos c) := by
  have hsub : List.Sublist ((filterPos c).map Prod.fst) (c.map Prod.fst) :=
    List.Sublist.map Prod.fst (List.filter_sublist c)
  exact List.Nodup.sublist hsub h

theorem sumValues_nonneg {c : Counts} (h : ∀ kv ∈ c, 0 ≤ kv.2) : 0 ≤ sumValues c := by
  induction c with
  | nil => simp [sumValues]
  | cons kv rest ih =>
    have := h kv (List.mem_cons_self _ _)
    have h2 := ih (fun kv2 hm => h kv2 (List.mem_cons_of_mem _ hm))
    simp only [sumValues]
    omega

theorem sumValues_pos {c : Counts} (h : posVals c) (hne : c ≠ []) : 0 < sumValues c := by
  cases c with
  | nil => exact absurd rfl hne
  | cons kv rest =>
    have h1 := h kv (List.mem_cons_self _ _)
    have h2 : 0 ≤ sumValues rest :=
      sumValues_nonneg (fun kv2 hm => le_of_lt (h kv2 (List.mem_cons_of_mem _ hm)))
    simp only [sumValues]
    omega

theorem eq_nil_of_sumValues_eq_zero {c : Counts} (h : posVals c) (hz : sumValues c = 0) :
    c = [] := by
  by_contra hne
  exact absurd hz (ne_of_gt (sumValues_pos h hne))

/-! ### Maximum lemmas -/

theorem le_foldl_max_init : ∀ (xs : List Int) (x : Int), x ≤ xs.foldl max x := by
  intro xs
  induction xs with
  | nil => intro x; simp
  | cons y ys ih =>
    intro x
    calc x ≤ max x y := le_max_left _ _
    _ ≤ ys.foldl max (max x y) := ih _

theorem le_foldl_max : ∀ (xs : List Int) (x a : Int), a ∈ x :: xs → a ≤ xs.foldl max x := by
  intro xs
  induction xs with
  | nil => intro x a h; simp at h; simp [h]
  | cons y ys ih =>
    intro x a h
    rcases List.mem_cons.1 h with rfl | h2
    · exact le_foldl_max_init (y :: ys) a
    · rcases List.mem_cons.1 h2 with rfl | h3
      · calc a ≤ max x a := le_max_right _ _
        _ ≤ ys.foldl max (max x a) := le_foldl_max_init _ _
      · exact ih (max x y) a (List.mem_cons_of_mem _ h3)

theorem foldl_max_mem : ∀ (xs : List Int) (x : Int), xs.foldl max x ∈ x :: xs := by
  intro xs
  induction xs with
  | nil => intro x; simp
  | cons y ys ih =>
    intro x
    rcases List.mem_cons.1 (ih (max x y)) with h1 | h1
    · rcases max_choice x y with h2 | h2
      · have h3 : List.foldl max (max x y) ys = x := h1.trans h2
        simp [h3]
      · have h3 : List.foldl max (max x y) ys = y := h1.trans h2
        simp [h3]
    · simp [List.mem_cons_of_mem _ h1]

theorem listMax?_mem {l : List Int} {m : Int} (h : listMax? l = some m) : m ∈ l := by
  cases l with
  | nil => simp [listMax?] at h
  | cons x xs =>
    simp [listMax?] at h
    subst h
    exact foldl_max_mem xs x

theorem le_listMax? {l : List Int} {m a : Int} (h : listMax? l = some m) (ha : a ∈ l) :
    a ≤ m := by
  cases l with
  | nil => simp [listMax?] at h
  | cons x xs =>
    simp [listMax?] at h
    subst h
    exact le_foldl_max xs x a ha

theorem listMax?_eq_some {l : List Int} {m : Int} (hm : m ∈ l) (hle : ∀ x ∈ l, x ≤ m) :
    listMax? l = some m := by
  cases l with
  | nil => simp at hm
  | cons x xs =>
    have h1 : xs.foldl max x ∈ x :: xs := foldl_max_mem xs x
    have h2 : xs.foldl max x ≤ m := hle _ h1
    have h3 : m ≤ xs.foldl max x := le_foldl_max xs x m hm
    simp [listMax?]
    omega

theorem listMax?_isSome {l : List Int} (h : l ≠ []) : ∃ m, listMax? l = some m := by
  cases l with
  | nil => exact absurd rfl h
  | cons x xs => exact ⟨xs.foldl max x, rfl⟩

/-! ### Removal lemmas -/

theorem can_remove_iff (batch : List Int) (counts : Counts) :
    can_remove_distances batch counts = true ↔
      ∀ v ∈ batch, ∃ c, getVal? counts v = some c ∧ (batch.count v : Int) ≤ c := by
  induction batch generalizing counts with
  | nil => simp [can_remove_distances]
  | cons d ds ih =>
    constructor
    · intro h
      rcases hd : getVal? counts d with _ | v0
      · simp [can_remove_distances, hd] at h
      · by_cases hv : v0 ≤ 0
        · simp [can_remove_distances, hd, hv] at h
        · have hrec : can_remove_distances ds (setVal counts d (v0 - 1)) = true := by
            simpa [can_remove_distances, hd, hv] using h
          have hget : ∀ x, getVal? (setVal counts d (v0 - 1)) x =
              if x = d then some (v0 - 1) else getVal? counts x := by
            intro x
            rw [getVal?_setVal]
            by_cases hxd : x = d
            · rw [if_pos hxd, if_pos hxd, hd]
              rfl
            · rw [if_neg hxd, if_neg hxd]
          intro x hx
          by_cases hxd : x = d
          · refine ⟨v0, by rw [hxd]; exact hd, ?_⟩
            rw [hxd, List.count_cons_self]
            by_cases hmem : d ∈ ds
            · rcases (ih _).1 hrec d hmem with ⟨c, hc, hcount⟩
              rw [hget d, if_pos rfl] at hc
              injection hc with hceq
              push_cast at hcount ⊢
              omega
            · rw [List.count_eq_zero_of_not_mem hmem]
              push_cast
              omega
          · have hx2 : x ∈ ds := by
              rcases List.mem_cons.1 hx with h2 | h2
              · exact absurd h2 hxd
              · exact h2
            rcases (ih _).1 hrec x hx2 with ⟨c, hc, hcount⟩
            rw [hget x, if_neg hxd] at hc
            refine ⟨c, hc, ?_⟩
            rw [List.count_cons_of_ne hxd]
            exact hcount
    · intro h
      rcases h d (List.mem_cons_self _ _) with ⟨c, hc, hcount⟩
      rw [List.count_cons_self] at hcount
      have hcpos : 0 < c := by push_cast at hcount; omega
      have hred : can_remove_distances (d :: ds) counts =
          can_remove_distances ds (setVal counts d (c - 1)) := by
        simp [can_remove_distances, hc, hcpos.not_le]
      rw [hred]
      apply (ih _).2
      have hget : ∀ x, getVal? (setVal counts d (c - 1)) x =
          if x = d then some (c - 1) else getVal? counts x := by
        intro x
        rw [getVal?_setVal]
        by_cases hxd : x = d
        · rw [if_pos hxd, if_pos hxd, hc]
          rfl
        · rw [if_neg hxd, if_neg hxd]
      intro x hx
      by_cases hxd : x = d
      · refine ⟨c - 1, by rw [hget x, if_pos hxd], ?_⟩
        rw [hxd]
        push_cast at hcount ⊢
        omega
      · rcases h x (List.mem_cons_of_mem _ hx) with ⟨cx, hcx, hcountx⟩
        refine ⟨cx, by rw [hget x, if_neg hxd]; exact hcx, ?_⟩
        rw [List.count_cons_of_ne hxd] at hcountx
        exact hcountx

theorem nonneg_setVal {c : Counts} {k w : Int} (hnn : ∀ kv ∈ c, 0 ≤ kv.2) (hw : 0 ≤ w) :
    ∀ kv ∈ setVal c k w, 0 ≤ kv.2 := by
  intro kv hm
  rcases mem_setVal hm with rfl | hm2
  · exact hw
  · exact hnn kv hm2

theorem removeAll_spec {ds : List Int} {c : Counts}
    (hnn : ∀ kv ∈ c, 0 ≤ kv.2) (h : can_remove_distances ds c = true) :
    ∃ c2, decAll? c ds = some c2 ∧ (∀ kv ∈ c2, 0 ≤ kv.2) ∧
      sumValues c2 = sumValues c - ds.length ∧
      toMultiset c2 = toMultiset c - Multiset.ofList ds ∧
      c2.map Prod.fst = c.map Prod.fst := by
  induction ds generalizing c with
  | nil =>
    refine ⟨c, rfl, hnn, by simp [sumValues], by simp, rfl⟩
  | cons d ds ih =>
    rcases hd : getVal? c d with _ | v
    · simp [can_remove_distances, hd] at h
    · by_cases hv : v ≤ 0
      · simp [can_remove_distances, hd, hv] at h
      · have hvpos : 0 < v := not_le.1 hv
        have hrec : can_remove_distances ds (setVal c d (v - 1)) = true := by
          simpa [can_remove_distances, hd, hv] using h
        have hnn2 : ∀ kv ∈ setVal c d (v - 1), 0 ≤ kv.2 :=
          nonneg_setVal hnn (by omega)
        rcases ih hnn2 hrec with ⟨c2, hdec, hnn3, hsum, hmul, hkeys⟩
        refine ⟨c2, by simp [decAll?, hd, hdec], hnn3, ?_, ?_, ?_⟩
        · rw [hsum, sumValues_setVal (v - 1) hd]
          simp only [List.length_cons]
          push_cast
          ring
        · rw [hmul, toMultiset_setVal_dec hd hvpos, tsub_tsub]
          congr 1
        · rw [hkeys, keys_setVal]

theorem decAll?_some_of_canRemove {ds : List Int} {c : Counts}
    (h : can_remove_distances ds c = true) : ∃ c2, decAll? c ds = some c2 := by
  induction ds generalizing c with
  | nil => exact ⟨c, rfl⟩
  | cons d ds ih =>
    rcases hd : getVal? c d with _ | v
    · simp [can_remove_distances, hd] at h
    · by_cases hv : v ≤ 0
      · simp [can_remove_distances, hd, hv] at h
      · have hrec : can_remove_distances ds (setVal c d (v - 1)) = true := by
          simpa [can_remove_distances, hd, hv] using h
        rcases ih hrec with ⟨c2, hc2⟩
        exact ⟨c2, by simp [decAll?, hd, hc2]⟩

theorem length_calculate_distances (pt : Int) (points : List Int) :
    (calculate_distances pt points).length = points.length := by
  simp [calculate_distances]

theorem tryCandidate_spec {cc : Counts} {cp : List Int} {cand : Int}
    {ps : List (Counts × List Int)}
    (hpos : posVals cc) (h : tryCandidate cc cp cand = some ps) :
    ps = [] ∨ ∃ c3, ps = [(c3, cp ++ [cand])] ∧ cand ∉ cp ∧
      can_remove_distances (calculate_distances cand cp) cc = true ∧
      posVals c3 ∧ (keysNodup cc → keysNodup c3) ∧
      sumValues c3 = sumValues cc - cp.length ∧
      toMultiset c3 = toMultiset cc - Multiset.ofList (calculate_distances cand cp) := by
  have hnn : ∀ kv ∈ cc, 0 ≤ kv.2 := fun kv hm => le_of_lt (hpos kv hm)
  by_cases hcr : can_remove_distances (calculate_distances cand cp) cc = true
  · rcases removeAll_spec hnn hcr with ⟨c2, hdec, hnn2, hsum, hmul, hkeys⟩
    by_cases hmem : cand ∈ cp
    · have hval : tryCandidate cc cp cand = some [] := by
        unfold tryCandidate
        rw [if_pos hcr, hdec]
        simp [hmem]
      rw [h] at hval
      injection hval with hh
      exact Or.inl hh
    · have hval : tryCandidate cc cp cand = some [(filterPos c2, cp ++ [cand])] := by
        unfold tryCandidate
        rw [if_pos hcr, hdec]
        simp [hmem]
      rw [h] at hval
      injection hval with hh
      right
      refine ⟨filterPos c2, hh, hmem, hcr, posVals_filterPos c2, ?_, ?_, ?_⟩
      · intro hknd
        apply keysNodup_filterPos
        unfold keysNodup
        rw [hkeys]
        exact hknd
      · rw [sumValues_filterPos hnn2, hsum, length_calculate_distances]
      · rw [toMultiset_filterPos hnn2, hmul]
  · have hval : tryCandidate cc cp cand = some [] := by
      unfold tryCandidate
      rw [if_neg hcr]
    rw [h] at hval
    injection hval with hh
    exact Or.inl hh

theorem tryCandidate_ne_none (cc : Counts) (cp : List Int) (cand : Int) :
    tryCandidate cc cp cand ≠ none := by
  unfold tryCandidate
  by_cases hcr : can_remove_distances (calculate_distances cand cp) cc = true
  · rcases decAll?_some_of_canRemove hcr with ⟨c2, hc2⟩
    rw [if_pos hcr, hc2]
    by_cases hmem : cand ∈ cp <;> simp [hmem]
  · rw [if_neg hcr]
    simp

theorem stepEntry_some (w : Int) (cc : Counts) (cp : List Int)
    (hsum : sumValues cc ≠ 0) : ∃ pushes, stepEntry w cc cp = some pushes := by
  have hne : cc ≠ [] := fun hh => hsum (by rw [hh]; rfl)
  have hkeys : cc.map Prod.fst ≠ [] := by
    cases cc with
    | nil => exact absurd rfl hne
    | cons kv rest => simp
  rcases listMax?_isSome hkeys with ⟨m, hm⟩
  rcases Option.ne_none_iff_exists'.1 (tryCandidate_ne_none cc cp m) with ⟨p1, hp1⟩
  rcases Option.ne_none_iff_exists'.1 (tryCandidate_ne_none cc cp (w - m)) with ⟨p2, hp2⟩
  refine ⟨p1 ++ p2, ?_⟩
  unfold stepEntry
  rw [show maxKey? cc = some m from hm]
  simp [hp1, hp2]

theorem stepEntry_mem {w : Int} {cc : Counts} {cp : List Int}
    {pushes : List (Counts × List Int)}
    (h : stepEntry w cc cp = some pushes) :
    ∃ m, maxKey? cc = some m ∧ ∃ p1 p2,
      tryCandidate cc cp m = some p1 ∧ tryCandidate cc cp (w - m) = some p2 ∧
      pushes = p1 ++ p2 := by
  unfold stepEntry at h
  rcases hm : maxKey? cc with _ | m
  · simp only [hm] at h
    exact Option.noConfusion h
  · simp only [hm] at h
    rcases h1 : tryCandidate cc cp m with _ | p1
    · simp only [h1] at h
      exact Option.noConfusion h
    · simp only [h1] at h
      rcases h2 : tryCandidate cc cp (w - m) with _ | p2
      · simp only [h2] at h
        exact Option.noConfusion h
      · simp only [h2] at h
        injection h with hh
        exact ⟨m, rfl, p1, p2, h1, h2, hh.symm⟩

theorem stepEntry_child {w : Int} {cc : Counts} {cp : List Int}
    {pushes : List (Counts × List Int)} {e : Counts × List Int} (hpos : posVals cc)
    (h : stepEntry w cc cp = some pushes) (he : e ∈ pushes) :
    ∃ cand c3, e = (c3, cp ++ [cand]) ∧ cand ∉ cp ∧
      can_remove_distances (calculate_distances cand cp) cc = true ∧
      posVals c3 ∧ (keysNodup cc → keysNodup c3) ∧
      sumValues c3 = sumValues cc - cp.length ∧
      toMultiset c3 = toMultiset cc - Multiset.ofList (calculate_distances cand cp) := by
  rcases stepEntry_mem h with ⟨m, hm, p1, p2, h1, h2, rfl⟩
  rcases List.mem_append.1 he with he1 | he2
  · rcases tryCandidate_spec hpos h1 with rfl | ⟨c3, rfl, hx⟩
    · simp at he1
    · rw [List.mem_singleton.1 he1]
      exact ⟨m, c3, rfl, hx.1, hx.2.1, hx.2.2.1, hx.2.2.2.1, hx.2.2.2.2.1, hx.2.2.2.2.2⟩
  · rcases tryCandidate_spec hpos h2 with rfl | ⟨c3, rfl, hx⟩
    · simp at he2
    · rw [List.mem_singleton.1 he2]
      exact ⟨w - m, c3, rfl, hx.1, hx.2.1, hx.2.2.1, hx.2.2.2.1, hx.2.2.2.2.1, hx.2.2.2.2.2⟩

/-! ### Loop lemmas -/

theorem stackPhi_append (a b : List (Counts × List Int)) :
    stackPhi (a ++ b) = stackPhi a + stackPhi b := by
  induction a with
  | nil => simp [stackPhi]
  | cons e r ih =>
    show entryPhi e + stackPhi (r ++ b) = entryPhi e + stackPhi r + stackPhi b
    rw [ih]
    ring

theorem stackPhi_reverse (a : List (Counts × List Int)) :
    stackPhi a.reverse = stackPhi a := by
  induction a with
  | nil => rfl
  | cons e r ih =>
    simp only [List.reverse_cons, stackPhi_append, ih, stackPhi]
    ring

theorem find_solution_loop_ne_error (w : Int) :
    ∀ (fuel : Nat) (stack : List (Counts × List Int)),
      find_solution_loop w fuel stack ≠ .error := by
  intro fuel
  induction fuel with
  | zero =>
    intro stack
    simp [find_solution_loop]
  | succ n ih =>
    intro stack
    cases stack with
    | nil => simp [find_solution_loop, loopStep]
    | cons e rest =>
      rcases e with ⟨cc, cp⟩
      by_cases hz : sumValues cc = 0
      · simp [find_solution_loop, loopStep, hz]
      · rcases stepEntry_some w cc cp hz with ⟨pushes, hp⟩
        simp only [find_solution_loop, loopStep, hz, if_false, hp]
        exact ih _

theorem tryCandidate_phi {cc : Counts} {cp : List Int} {cand : Int}
    {pp : List (Counts × List Int)} (hpos : posVals cc) (hcp : cp ≠ [])
    (h : tryCandidate cc cp cand = some pp) :
    stackPhi pp ≤ 3 ^ ((sumValues cc).toNat - 1) := by
  rcases tryCandidate_spec hpos h with rfl | ⟨c3, rfl, hnot, hcr, hpos3, hknd, hsum3, hmul3⟩
  · simp [stackPhi]
  · simp only [stackPhi, entryPhi]
    rw [Nat.add_zero]
    apply Nat.pow_le_pow_right (by norm_num)
    have h0 : 0 ≤ sumValues c3 := sumValues_nonneg (fun kv hm => le_of_lt (hpos3 kv hm))
    have hlen : 0 < cp.length := List.length_pos.2 hcp
    omega

theorem find_solution_loop_halts (w : Int) :
    ∀ (fuel : Nat) (stack : List (Counts × List Int)),
      (∀ e ∈ stack, posVals e.1 ∧ e.2 ≠ []) →
      stackPhi stack < fuel →
      find_solution_loop w fuel stack ≠ .outOfFuel := by
  intro fuel
  induction fuel with
  | zero =>
    intro stack hinv hphi
    omega
  | succ n ih =>
    intro stack hinv hphi
    cases stack with
    | nil => simp [find_solution_loop, loopStep]
    | cons e rest =>
      rcases e with ⟨cc, cp⟩
      have hhead := hinv (cc, cp) (List.mem_cons_self _ _)
      have hposcc : posVals cc := hhead.1
      have hcpne : cp ≠ [] := hhead.2
      by_cases hz : sumValues cc = 0
      · simp [find_solution_loop, loopStep, hz]
      · rcases stepEntry_some w cc cp hz with ⟨pushes, hp⟩
        simp only [find_solution_loop, loopStep, hz, if_false, hp]
        have hchild : ∀ e2 ∈ pushes, posVals e2.1 ∧ e2.2 ≠ [] := by
          intro e2 he2
          rcases stepEntry_child hposcc hp he2 with
            ⟨cand, c3, rfl, hnot, hcr, hpos3, hknd, hsum3, hmul3⟩
          exact ⟨hpos3, by simp⟩
        have hinv2 : ∀ e2 ∈ pushes.reverse ++ rest, posVals e2.1 ∧ e2.2 ≠ [] := by
          intro e2 he2
          rcases List.mem_append.1 he2 with h2 | h2
          · exact hchild e2 (List.mem_reverse.1 h2)
          · exact hinv e2 (List.mem_cons_of_mem _ h2)
        apply ih _ hinv2
        rcases stepEntry_mem hp with ⟨m, hmk, p1, p2, h1, h2, rfl⟩
        have h1phi := tryCandidate_phi hposcc hcpne h1
        have h2phi := tryCandidate_phi hposcc hcpne h2
        have hspos : 0 < (sumValues cc).toNat := by
          have := sumValues_nonneg (fun kv hm => le_of_lt (hposcc kv hm))
          omega
        have hlt : 2 * 3 ^ ((sumValues cc).toNat - 1) < 3 ^ (sumValues cc).toNat := by
          have hppos : 0 < 3 ^ ((sumValues cc).toNat - 1) := pow_pos (by norm_num) _
          calc 2 * 3 ^ ((sumValues cc).toNat - 1)
              < 3 * 3 ^ ((sumValues cc).toNat - 1) := by omega
          _ = 3 ^ ((sumValues cc).toNat - 1 + 1) := by ring
          _ = 3 ^ (sumValues cc).toNat := by
              congr 1
              omega
        have hA : stackPhi ((p1 ++ p2).reverse ++ rest) =
            stackPhi p1 + stackPhi p2 + stackPhi rest := by
          rw [stackPhi_append, stackPhi_reverse, stackPhi_append]
        have hB : stackPhi ((cc, cp) :: rest) = 3 ^ (sumValues cc).toNat + stackPhi rest := rfl
        rw [hA]
        rw [hB] at hphi
        omega

theorem find_solution_loop_mono (w : Int) :
    ∀ (fuel : Nat) (stack : List (Counts × List Int)) (fuel2 : Nat),
      find_solution_loop w fuel stack ≠ .outOfFuel → fuel ≤ fuel2 →
      find_solution_loop w fuel2 stack = find_solution_loop w fuel stack := by
  intro fuel
  induction fuel with
  | zero =>
    intro stack fuel2 h hle
    exact absurd rfl h
  | succ n ih =>
    intro stack fuel2 h hle
    rcases fuel2 with _ | m
    · omega
    · cases hstep : loopStep w stack with
      | halt out => simp only [find_solution_loop, hstep]
      | next s2 =>
        simp only [find_solution_loop, hstep] at h ⊢
        exact ih s2 m h (by omega)

/-! ### Pairwise-distance lemmas -/

theorem sortInts_perm (l : List Int) : (sortInts l).Perm l :=
  List.perm_insertionSort _ l

theorem ofList_sortInts (l : List Int) : (↑(sortInts l) : Multiset Int) = ↑l :=
  Multiset.coe_eq_coe.2 (sortInts_perm l)

theorem perm_cons_append_swap (c : Int) (a b t : List Int) :
    ((c :: (a ++ (b ++ t))).Perm (c :: (b ++ (a ++ t)))) := by
  have h : ((a ++ b) ++ t).Perm ((b ++ a) ++ t) :=
    List.Perm.append_right t List.perm_append_comm
  simpa [List.append_assoc] using List.Perm.cons c h

theorem pairsDists_perm {l l2 : List Int} (h : l.Perm l2) :
    (pairsDists l).Perm (pairsDists l2) := by
  induction h with
  | nil => exact List.Perm.refl _
  | cons x h ih => exact List.Perm.append (List.Perm.map _ h) ih
  | swap x y l =>
    show (calculate_distances y (x :: l) ++ (calculate_distances x l ++ pairsDists l)).Perm
      (calculate_distances x (y :: l) ++ (calculate_distances y l ++ pairsDists l))
    have hxy : calculate_distances y (x :: l) = |x - y| :: calculate_distances y l := rfl
    have hyx : calculate_distances x (y :: l) = |y - x| :: calculate_distances x l := rfl
    rw [hxy, hyx, abs_sub_comm x y]
    exact perm_cons_append_swap (|y - x|) (calculate_distances y l) (calculate_distances x l)
      (pairsDists l)
  | trans h1 h2 ih1 ih2 => exact ih1.trans ih2

theorem ofList_pairsDists_perm {l l2 : List Int} (h : l.Perm l2) :
    (↑(pairsDists l) : Multiset Int) = ↑(pairsDists l2) :=
  Multiset.coe_eq_coe.2 (pairsDists_perm h)

theorem pd_mem {l : List Int} {m : Int} (h : m ∈ pairsDists l) :
    ∃ a ∈ l, ∃ b ∈ l, m = |b - a| := by
  induction l with
  | nil => simp [pairsDists] at h
  | cons p rest ih =>
    rcases List.mem_append.1 h with h1 | h1
    · rcases List.mem_map.1 h1 with ⟨q, hq, hval⟩
      exact ⟨p, List.mem_cons_self _ _, q, List.mem_cons_of_mem _ hq, hval.symm⟩
    · rcases ih h1 with ⟨a, ha, b, hb, hval⟩
      exact ⟨a, List.mem_cons_of_mem _ ha, b, List.mem_cons_of_mem _ hb, hval⟩

theorem mem_pd {l : List Int} {a b : Int} (ha : a ∈ l) (hb : b ∈ l) (hne : a ≠ b) :
    |b - a| ∈ pairsDists l := by
  induction l with
  | nil => simp at ha
  | cons p rest ih =>
    rcases List.mem_cons.1 ha with rfl | ha2
    · have hb2 : b ∈ rest := by
        rcases List.mem_cons.1 hb with rfl | h2
        · exact absurd rfl hne
        · exact h2
      exact List.mem_append.2 (Or.inl (List.mem_map.2 ⟨b, hb2, rfl⟩))
    · rcases List.mem_cons.1 hb with rfl | hb2
      · rw [abs_sub_comm]
        exact List.mem_append.2 (Or.inl (List.mem_map.2 ⟨a, ha2, rfl⟩))
      · exact List.mem_append.2 (Or.inr (ih ha2 hb2))

theorem crossDists_perm {q q2 : List Int} (cp : List Int) (h : q.Perm q2) :
    (crossDists q cp).Perm (crossDists q2 cp) := by
  induction h with
  | nil => exact List.Perm.refl _
  | cons x h ih => exact List.Perm.append (List.Perm.refl _) ih
  | swap x y l =>
    show (calculate_distances y cp ++ (calculate_distances x cp ++ crossDists l cp)).Perm
      (calculate_distances x cp ++ (calculate_distances y cp ++ crossDists l cp))
    have h2 : ((calculate_distances y cp ++ calculate_distances x cp) ++ crossDists l cp).Perm
        ((calculate_distances x cp ++ calculate_distances y cp) ++ crossDists l cp) :=
      List.Perm.append_right _ List.perm_append_comm
    simpa [List.append_assoc] using h2
  | trans h1 h2 ih1 ih2 => exact ih1.trans ih2

theorem ofList_crossDists_perm {q q2 : List Int} (cp : List Int) (h : q.Perm q2) :
    (↑(crossDists q cp) : Multiset Int) = ↑(crossDists q2 cp) :=
  Multiset.coe_eq_coe.2 (crossDists_perm cp h)

theorem mem_cross {q cp : List Int} {m : Int} (h : m ∈ crossDists q cp) :
    ∃ a ∈ q, ∃ b ∈ cp, m = |b - a| := by
  induction q with
  | nil => simp [crossDists] at h
  | cons p rest ih =>
    rcases List.mem_append.1 h with h1 | h1
    · rcases List.mem_map.1 h1 with ⟨b, hb, hval⟩
      exact ⟨p, List.mem_cons_self _ _, b, hb, hval.symm⟩
    · rcases ih h1 with ⟨a, ha, b, hb, hval⟩
      exact ⟨a, List.mem_cons_of_mem _ ha, b, hb, hval⟩

theorem cross_mem {q cp : List Int} {a b : Int} (ha : a ∈ q) (hb : b ∈ cp) :
    |b - a| ∈ crossDists q cp := by
  induction q with
  | nil => simp at ha
  | cons p rest ih =>
    rcases List.mem_cons.1 ha with rfl | ha2
    · exact List.mem_append.2 (Or.inl (List.mem_map.2 ⟨b, hb, rfl⟩))
    · exact List.mem_append.2 (Or.inr (ih ha2))

theorem crossDists_nil_right (q : List Int) : crossDists q [] = [] := by
  induction q with
  | nil => rfl
  | cons p rest ih => simp [crossDists, calculate_distances, ih]

theorem cross_cons_right (q : List Int) (b : Int) (cp : List Int) :
    (↑(crossDists q (b :: cp)) : Multiset Int) =
      ↑(q.map (fun a => |b - a|)) + ↑(crossDists q cp) := by
  induction q with
  | nil => rfl
  | cons p rest ih =>
    show (↑(calculate_distances p (b :: cp) ++ crossDists rest (b :: cp)) : Multiset Int) = _
    have h1 : calculate_distances p (b :: cp) = |b - p| :: calculate_distances p cp := rfl
    rw [h1, ← Multiset.coe_add, ← Multiset.cons_coe, Multiset.cons_add, ih]
    show (|b - p| ::ₘ (↑(calculate_distances p cp) +
      (↑(rest.map (fun a => |b - a|)) + ↑(crossDists rest cp)))) = _
    have h2 : ((p :: rest).map (fun a => |b - a|)) = |b - p| :: rest.map (fun a => |b - a|) := rfl
    rw [h2, ← Multiset.cons_coe, Multiset.cons_add]
    show _ = |b - p| ::ₘ (↑(rest.map (fun a => |b - a|)) +
      ↑(crossDists (p :: rest) cp))
    have h3 : (↑(crossDists (p :: rest) cp) : Multiset Int) =
        ↑(calculate_distances p cp) + ↑(crossDists rest cp) := by
      show (↑(calculate_distances p cp ++ crossDists rest cp) : Multiset Int) = _
      rw [← Multiset.coe_add]
    rw [h3]
    congr 1
    abel

theorem cross_append_single (q : List Int) (cp : List Int) (b : Int) :
    (↑(crossDists q (cp ++ [b])) : Multiset Int) =
      ↑(crossDists q cp) + ↑(q.map (fun a => |b - a|)) := by
  induction q with
  | nil => rfl
  | cons p rest ih =>
    show (↑(calculate_distances p (cp ++ [b]) ++ crossDists rest (cp ++ [b])) : Multiset Int) = _
    have h1 : calculate_distances p (cp ++ [b]) =
        calculate_distances p cp ++ [|b - p|] := by
      simp [calculate_distances]
    rw [h1, ← Multiset.coe_add, ← Multiset.coe_add, ih]
    show (↑(calculate_distances p cp) : Multiset Int) + ↑([|b - p|]) +
      (↑(crossDists rest cp) + ↑(rest.map fun a => |b - a|)) = _
    have h2 : ((p :: rest).map (fun a => |b - a|)) = |b - p| :: rest.map (fun a => |b - a|) := rfl
    have h3 : (↑(crossDists (p :: rest) cp) : Multiset Int) =
        ↑(calculate_distances p cp) + ↑(crossDists rest cp) := by
      show (↑(calculate_distances p cp ++ crossDists rest cp) : Multiset Int) = _
      rw [← Multiset.coe_add]
    rw [h2, h3, ← Multiset.cons_coe, Multiset.coe_nil, Multiset.cons_zero,
      ← Multiset.cons_coe, ← Multiset.singleton_add]
    abel

theorem pd_append_single (cp : List Int) (cand : Int) :
    (↑(pairsDists (cp ++ [cand])) : Multiset Int) =
      ↑(pairsDists cp) + ↑(calculate_distances cand cp) := by
  rw [ofList_pairsDists_perm (List.perm_append_singleton cand cp)]
  show (↑(calculate_distances cand cp ++ pairsDists cp) : Multiset Int) = _
  rw [← Multiset.coe_add]
  abel

/-! ### create_distance_counts lemmas -/

theorem toMultiset_append (a b : Counts) :
    toMultiset (a ++ b) = toMultiset a + toMultiset b := by
  induction a with
  | nil => simp [toMultiset]
  | cons kv rest ih =>
    show toMultiset (kv :: (rest ++ b)) = _
    simp only [toMultiset, ih]
    rw [add_assoc]

theorem getVal?_none_not_mem {c : Counts} {d : Int} (h : getVal? c d = none) :
    d ∉ c.map Prod.fst := by
  induction c with
  | nil => simp
  | cons kv rest ih =>
    by_cases h1 : kv.1 = d
    · simp [getVal?, h1] at h
    · simp [getVal?, h1] at h
      simp only [List.map_cons, List.mem_cons]
      push_neg
      exact ⟨fun hh => h1 hh.symm, ih h⟩

theorem getVal?_mem {c : Counts} {k v : Int} (h : getVal? c k = some v) : (k, v) ∈ c := by
  induction c with
  | nil => simp [getVal?] at h
  | cons kv rest ih =>
    by_cases h1 : kv.1 = k
    · simp [getVal?, h1] at h
      have : kv = (k, v) := Prod.ext h1 h
      rw [← this]
      exact List.mem_cons_self _ _
    · simp [getVal?, h1] at h
      exact List.mem_cons_of_mem _ (ih h)

theorem addDist_spec {c : Counts} (hpos : posVals c) (hknd : keysNodup c) (d : Int) :
    posVals (addDist c d) ∧ keysNodup (addDist c d) ∧
    toMultiset (addDist c d) = toMultiset c + {d} := by
  unfold addDist
  rcases hd : getVal? c d with _ | v
  · refine ⟨?_, ?_, ?_⟩
    · intro kv hm
      rcases List.mem_append.1 hm with h1 | h1
      · exact hpos kv h1
      · simp at h1
        rw [h1]
        norm_num
    · unfold keysNodup at *
      rw [List.map_append]
      have hnm := getVal?_none_not_mem hd
      simp [List.nodup_append, hknd, hnm]
    · rw [toMultiset_append]
      congr 1
  · have hvpos : 0 < v := hpos (d, v) (getVal?_mem hd)
    refine ⟨?_, ?_, ?_⟩
    · intro kv hm
      rcases mem_setVal hm with rfl | h1
      · show (0 : Int) < v + 1
        omega
      · exact hpos kv h1
    · unfold keysNodup at *
      rw [keys_setVal]
      exact hknd
    · exact toMultiset_setVal_inc hd (le_of_lt hvpos)

theorem create_aux (ds : List Int) :
    ∀ (c : Counts), posVals c → keysNodup c →
      posVals (ds.foldl addDist c) ∧ keysNodup (ds.foldl addDist c) ∧
      toMultiset (ds.foldl addDist c) = toMultiset c + ↑ds := by
  induction ds with
  | nil =>
    intro c h1 h2
    exact ⟨h1, h2, by simp⟩
  | cons d rest ih =>
    intro c h1 h2
    rcases addDist_spec h1 h2 d with ⟨g1, g2, g3⟩
    rcases ih _ g1 g2 with ⟨f1, f2, f3⟩
    refine ⟨f1, f2, ?_⟩
    show toMultiset (rest.foldl addDist (addDist c d)) = _
    rw [f3, g3, ← Multiset.cons_coe, ← Multiset.singleton_add]
    abel

theorem create_spec (ds : List Int) :
    posVals (create_distance_counts ds) ∧ keysNodup (create_distance_counts ds) ∧
    toMultiset (create_distance_counts ds) = ↑ds := by
  rcases create_aux ds [] (by intro kv h; simp at h) (by simp [keysNodup]) with ⟨h1, h2, h3⟩
  refine ⟨h1, h2, ?_⟩
  rw [show create_distance_counts ds = ds.foldl addDist [] from rfl, h3]
  show toMultiset [] + ↑ds = ↑ds
  simp [toMultiset]

/-! ### The branching rule preserves extendability -/

theorem mem_toMultiset_of_mem {c : Counts} {kv : Int × Int} (h : kv ∈ c) (hv : 0 < kv.2) :
    kv.1 ∈ toMultiset c := by
  induction c with
  | nil => simp at h
  | cons kv0 rest ih =>
    simp only [toMultiset, Multiset.mem_add]
    rcases List.mem_cons.1 h with rfl | h1
    · left
      rw [Multiset.mem_replicate]
      exact ⟨by omega, rfl⟩
    · right
      exact ih h1

theorem can_remove_of_le {batch : List Int} {cc : Counts}
    (hpos : posVals cc) (hknd : keysNodup cc)
    (hle : (↑batch : Multiset Int) ≤ toMultiset cc) :
    can_remove_distances batch cc = true := by
  apply (can_remove_iff batch cc).2
  intro v hv
  have hcount := Multiset.le_iff_count.1 hle v
  rw [count_toMultiset hknd v, Multiset.coe_count] at hcount
  rcases hg : getVal? cc v with _ | c
  · rw [hg] at hcount
    simp at hcount
    have hne : batch.count v ≠ 0 := fun hzz => (List.count_eq_zero.1 hzz) hv
    omega
  · rw [hg] at hcount
    simp at hcount
    have hcpos : 0 < c := hpos (v, c) (getVal?_mem hg)
    refine ⟨c, rfl, ?_⟩
    omega

theorem tryCandidate_push {cc : Counts} {cp : List Int} {cand : Int}
    (hpos : posVals cc) (hcr : can_remove_distances (calculate_distances cand cp) cc = true)
    (hnm : cand ∉ cp) :
    ∃ c3, tryCandidate cc cp cand = some [(c3, cp ++ [cand])] ∧
      posVals c3 ∧ (keysNodup cc → keysNodup c3) ∧
      toMultiset c3 = toMultiset cc - ↑(calculate_distances cand cp) := by
  have hnn : ∀ kv ∈ cc, 0 ≤ kv.2 := fun kv hm => le_of_lt (hpos kv hm)
  rcases removeAll_spec hnn hcr with ⟨c2, hdec, hnn2, hsum, hmul2, hkeys⟩
  refine ⟨filterPos c2, ?_, posVals_filterPos c2, ?_, ?_⟩
  · unfold tryCandidate
    rw [if_pos hcr, hdec]
    simp [hnm]
  · intro hk
    apply keysNodup_filterPos
    unfold keysNodup
    rw [hkeys]
    exact hk
  · rw [toMultiset_filterPos hnn2, hmul2]

theorem viable_step {w : Int} {cc : Counts} {cp : List Int}
    {pushes : List (Counts × List Int)}
    (hv : Viable w cc cp) (hz : sumValues cc ≠ 0)
    (hp : stepEntry w cc cp = some pushes) :
    ∃ e ∈ pushes, Viable w e.1 e.2 := by
  rcases hv with ⟨hpos, hknd, h0, hw, hrange, q, hqnd, hqp, hmul⟩
  rcases stepEntry_mem hp with ⟨y, hy, p1, p2, h1, h2, rfl⟩
  have hymem : y ∈ toMultiset cc := by
    have hk : y ∈ cc.map Prod.fst := listMax?_mem hy
    rcases List.mem_map.1 hk with ⟨kv, hkv, rfl⟩
    exact mem_toMultiset_of_mem hkv (hpos kv hkv)
  have hmax : ∀ m ∈ toMultiset cc, m ≤ y := by
    intro m hm
    rcases mem_toMultiset hm with ⟨kv, hkv, rfl, hvp⟩
    exact le_listMax? hy (List.mem_map.2 ⟨kv, hkv, rfl⟩)
  rw [hmul] at hymem
  have hex : ∃ a ∈ q, ∃ b : Int, 0 ≤ b ∧ b ≤ w ∧ y = |b - a| := by
    rcases Multiset.mem_add.1 hymem with hmm | hmm
    · rcases pd_mem (Multiset.mem_coe.1 hmm) with ⟨a, ha, b, hb, hval⟩
      exact ⟨a, ha, b, (hqp b hb).2.1, (hqp b hb).2.2, hval⟩
    · rcases mem_cross (Multiset.mem_coe.1 hmm) with ⟨a, ha, b, hb, hval⟩
      exact ⟨a, ha, b, (hrange b hb).1, (hrange b hb).2, hval⟩
  rcases hex with ⟨p0, hp0q, b, hb0, hbw, hyval⟩
  have hp0r := hqp p0 hp0q
  have hd0 : |(0 : Int) - p0| ∈ toMultiset cc := by
    rw [hmul]
    exact Multiset.mem_add.2 (Or.inr (Multiset.mem_coe.2 (cross_mem hp0q h0)))
  have hdw : |w - p0| ∈ toMultiset cc := by
    rw [hmul]
    exact Multiset.mem_add.2 (Or.inr (Multiset.mem_coe.2 (cross_mem hp0q hw)))
  have habs0 : |(0 : Int) - p0| = p0 := by
    rw [abs_sub_comm]
    simpa using abs_of_nonneg hp0r.2.1
  have habsw : |w - p0| = w - p0 := abs_of_nonneg (by omega)
  have hle1 : p0 ≤ y := habs0 ▸ hmax _ hd0
  have hle2 : w - p0 ≤ y := habsw ▸ hmax _ hdw
  have hyle : y ≤ max p0 (w - p0) := by
    rw [hyval]
    by_cases hbp : b ≤ p0
    · have habs : |b - p0| = p0 - b := by
        rw [abs_sub_comm]
        exact abs_of_nonneg (by omega)
      rw [habs]
      exact le_trans (by omega) (le_max_left p0 (w - p0))
    · have habs : |b - p0| = b - p0 := abs_of_nonneg (by omega)
      rw [habs]
      exact le_trans (by omega) (le_max_right p0 (w - p0))
  have hcand : y = p0 ∨ y = w - p0 := by
    rcases max_choice p0 (w - p0) with hmc | hmc <;> rw [hmc] at hyle <;> omega
  have hcrossq : (↑(crossDists q cp) : Multiset Int) =
      ↑(calculate_distances p0 cp) + ↑(crossDists (q.erase p0) cp) := by
    rw [ofList_crossDists_perm cp (List.perm_cons_erase hp0q)]
    show (↑(calculate_distances p0 cp ++ crossDists (q.erase p0) cp) : Multiset Int) = _
    rw [← Multiset.coe_add]
  have hble : (↑(calculate_distances p0 cp) : Multiset Int) ≤ toMultiset cc := by
    rw [hmul, hcrossq]
    calc (↑(calculate_distances p0 cp) : Multiset Int)
        ≤ ↑(calculate_distances p0 cp) + ↑(crossDists (q.erase p0) cp) :=
          Multiset.le_add_right _ _
    _ ≤ ↑(pairsDists q) + (↑(calculate_distances p0 cp) + ↑(crossDists (q.erase p0) cp)) :=
          Multiset.le_add_left _ _
  have hcr : can_remove_distances (calculate_distances p0 cp) cc = true :=
    can_remove_of_le hpos hknd hble
  rcases tryCandidate_push hpos hcr hp0r.1 with ⟨c3, hpc, hpos3, hknd3, hmul3⟩
  have hM : toMultiset cc =
      (↑(pairsDists (q.erase p0)) + ↑(crossDists (q.erase p0) (cp ++ [p0]))) +
        ↑(calculate_distances p0 cp) := by
    rw [hmul]
    rw [ofList_pairsDists_perm (List.perm_cons_erase hp0q)]
    rw [show (↑(pairsDists (p0 :: q.erase p0)) : Multiset Int) =
        ↑(calculate_distances p0 (q.erase p0)) + ↑(pairsDists (q.erase p0)) from by
      show (↑(calculate_distances p0 (q.erase p0) ++ pairsDists (q.erase p0)) : Multiset Int) = _
      rw [← Multiset.coe_add]]
    rw [hcrossq, cross_append_single]
    rw [show (q.erase p0).map (fun a => |p0 - a|) = calculate_distances p0 (q.erase p0) from
      List.map_congr_left (fun a _ => abs_sub_comm p0 a)]
    abel
  have hmul3b : toMultiset c3 =
      ↑(pairsDists (q.erase p0)) + ↑(crossDists (q.erase p0) (cp ++ [p0])) := by
    rw [hmul3, hM, add_tsub_cancel_right]
  have hviable : Viable w c3 (cp ++ [p0]) := by
    refine ⟨hpos3, hknd3 hknd, List.mem_append.2 (Or.inl h0), List.mem_append.2 (Or.inl hw),
      ?_, q.erase p0, hqnd.erase _, ?_, hmul3b⟩
    · intro x hx
      rcases List.mem_append.1 hx with hx1 | hx1
      · exact hrange x hx1
      · simp at hx1
        rw [hx1]
        exact ⟨hp0r.2.1, hp0r.2.2⟩
    · intro x hx
      have hxq := (List.Nodup.mem_erase_iff hqnd).1 hx
      refine ⟨?_, (hqp x hxq.2).2.1, (hqp x hxq.2).2.2⟩
      intro hmm
      rcases List.mem_append.1 hmm with hc1 | hc1
      · exact (hqp x hxq.2).1 hc1
      · simp at hc1
        exact hxq.1 hc1
  rcases hcand with hyp | hyp
  · rw [hyp] at h1
    rw [hpc] at h1
    injection h1 with hh
    refine ⟨(c3, cp ++ [p0]), ?_, hviable⟩
    rw [← hh]
    exact List.mem_append.2 (Or.inl (List.mem_singleton.2 rfl))
  · have hwy : w - y = p0 := by omega
    rw [hwy] at h2
    rw [hpc] at h2
    injection h2 with hh
    refine ⟨(c3, cp ++ [p0]), ?_, hviable⟩
    rw [← hh]
    exact List.mem_append.2 (Or.inr (List.mem_singleton.2 rfl))

theorem le_of_can_remove {batch : List Int} {cc : Counts}
    (hpos : posVals cc) (hknd : keysNodup cc)
    (hcr : can_remove_distances batch cc = true) :
    (↑batch : Multiset Int) ≤ toMultiset cc := by
  rw [Multiset.le_iff_count]
  intro v
  rw [Multiset.coe_count, count_toMultiset hknd v]
  by_cases hv : v ∈ batch
  · rcases (can_remove_iff batch cc).1 hcr v hv with ⟨c, hg, hcount⟩
    rw [hg]
    simp only [Option.map_some', Option.getD_some]
    omega
  · rw [List.count_eq_zero.2 hv]
    exact Nat.zero_le _

theorem stepEntry_phi_lt {w : Int} {cc : Counts} {cp : List Int}
    {pushes : List (Counts × List Int)} (hposcc : posVals cc) (hcp : cp ≠ [])
    (hz : sumValues cc ≠ 0) (hp : stepEntry w cc cp = some pushes) :
    stackPhi pushes < entryPhi (cc, cp) := by
  rcases stepEntry_mem hp with ⟨m, hmk, p1, p2, h1, h2, rfl⟩
  have h1phi := tryCandidate_phi hposcc hcp h1
  have h2phi := tryCandidate_phi hposcc hcp h2
  have hspos : 0 < (sumValues cc).toNat := by
    have := sumValues_nonneg (fun kv hm => le_of_lt (hposcc kv hm))
    omega
  have hlt : 2 * 3 ^ ((sumValues cc).toNat - 1) < 3 ^ (sumValues cc).toNat := by
    have hppos : 0 < 3 ^ ((sumValues cc).toNat - 1) := pow_pos (by norm_num) _
    calc 2 * 3 ^ ((sumValues cc).toNat - 1)
        < 3 * 3 ^ ((sumValues cc).toNat - 1) := by omega
    _ = 3 ^ ((sumValues cc).toNat - 1 + 1) := by ring
    _ = 3 ^ (sumValues cc).toNat := by
        congr 1
        omega
  have hA : stackPhi (p1 ++ p2) = stackPhi p1 + stackPhi p2 := stackPhi_append _ _
  have hB : entryPhi (cc, cp) = 3 ^ (sumValues cc).toNat := rfl
  omega

theorem loop_master (w : Int) (D : Multiset Int) :
    ∀ (fuel : Nat) (stack : List (Counts × List Int)),
      (∀ e ∈ stack, EntrySound D e ∧ e.2 ≠ []) →
      (∃ e ∈ stack, Viable w e.1 e.2) →
      stackPhi stack < fuel →
      ∃ ps, find_solution_loop w fuel stack = .found ps ∧
        Multiset.ofList (all_pairwise_distances ps) = D := by
  intro fuel
  induction fuel with
  | zero =>
    intro stack _ _ hphi
    omega
  | succ n ih =>
    intro stack hsound hviable hphi
    rcases hviable with ⟨ev, hev, hvev⟩
    cases stack with
    | nil => simp at hev
    | cons e rest =>
      rcases e with ⟨cc, cp⟩
      have hheadS := hsound (cc, cp) (List.mem_cons_self _ _)
      have hposcc : posVals cc := hheadS.1.1
      have hkndcc : keysNodup cc := hheadS.1.2.1
      have hmulcc : toMultiset cc + ↑(pairsDists cp) = D := hheadS.1.2.2
      have hcpne : cp ≠ [] := hheadS.2
      by_cases hz : sumValues cc = 0
      · have hccnil : cc = [] := eq_nil_of_sumValues_eq_zero hposcc hz
        refine ⟨sortInts cp, by simp [find_solution_loop, loopStep, hz], ?_⟩
        rw [hccnil] at hmulcc
        have h0 : (toMultiset [] : Multiset Int) = 0 := rfl
        rw [h0, zero_add] at hmulcc
        rw [← hmulcc]
        unfold all_pairwise_distances
        rw [ofList_sortInts]
        exact ofList_pairsDists_perm ((sortInts_perm _).trans (sortInts_perm cp))
      · rcases stepEntry_some w cc cp hz with ⟨pushes, hp⟩
        simp only [find_solution_loop, loopStep, hz, if_false, hp]
        have hsound2 : ∀ e2 ∈ pushes.reverse ++ rest, EntrySound D e2 ∧ e2.2 ≠ [] := by
          intro e2 he2
          rcases List.mem_append.1 he2 with h2 | h2
          · rcases stepEntry_child hposcc hp (List.mem_reverse.1 h2) with
              ⟨cand, c3, rfl, hnot, hcr, hpos3, hknd3, hsum3, hmul3⟩
            have hble := le_of_can_remove hposcc hkndcc hcr
            refine ⟨⟨hpos3, hknd3 hkndcc, ?_⟩, by simp⟩
            show toMultiset c3 + ↑(pairsDists (cp ++ [cand])) = D
            rw [hmul3, pd_append_single, ← hmulcc,
              add_comm (↑(pairsDists cp) : Multiset Int)
                (↑(calculate_distances cand cp) : Multiset Int),
              ← add_assoc, tsub_add_cancel_of_le hble]
          · exact hsound e2 (List.mem_cons_of_mem _ h2)
        have hviable2 : ∃ e2 ∈ pushes.reverse ++ rest, Viable w e2.1 e2.2 := by
          rcases List.mem_cons.1 hev with heq | hev2
          · have hvcc : Viable w cc cp := by
              rw [heq] at hvev
              exact hvev
            rcases viable_step hvcc hz hp with ⟨e2, he2, hve2⟩
            exact ⟨e2, List.mem_append.2 (Or.inl (List.mem_reverse.2 he2)), hve2⟩
          · exact ⟨ev, List.mem_append.2 (Or.inr hev2), hvev⟩
        apply ih _ hsound2 hviable2
        have hphi2 := stepEntry_phi_lt hposcc hcpne hz hp
        have hA : stackPhi (pushes.reverse ++ rest) = stackPhi pushes + stackPhi rest := by
          rw [stackPhi_append, stackPhi_reverse]
        have hB : stackPhi ((cc, cp) :: rest) = entryPhi (cc, cp) + stackPhi rest := rfl
        rw [hB] at hphi
        omega

/-! ### Round-trip setup: the initial search state is sound and viable -/

theorem round_trip_setup (P : List Int) (hs : P.Sorted (· < ·)) (h0 : P.head? = some 0)
    (hlen : 2 ≤ P.length) :
    ∃ wP, listMax? (all_pairwise_distances P) = some wP ∧
      EntrySound (↑(all_pairwise_distances P))
        (create_distance_counts
          ((all_pairwise_distances P).filter (fun d => decide (d ≠ wP))), [0, wP]) ∧
      Viable wP
        (create_distance_counts
          ((all_pairwise_distances P).filter (fun d => decide (d ≠ wP)))) [0, wP] := by
  have hPne : P ≠ [] := by
    intro hh
    rw [hh] at h0
    simp at h0
  have h0mem : (0 : Int) ∈ P := by
    cases P with
    | nil => simp at h0
    | cons a t =>
      simp at h0
      rw [← h0]
      exact List.mem_cons_self _ _
  have hnodup : P.Nodup := hs.nodup
  have hposall : ∀ x ∈ P, 0 ≤ x := by
    cases P with
    | nil => simp
    | cons a t =>
      simp at h0
      intro x hx
      rcases List.mem_cons.1 hx with rfl | hx2
      · omega
      · have := (List.sorted_cons.1 hs).1 x hx2
        omega
  rcases listMax?_isSome hPne with ⟨wP, hwP⟩
  have hwmem : wP ∈ P := listMax?_mem hwP
  have hwle : ∀ x ∈ P, x ≤ wP := fun x hx => le_listMax? hwP hx
  have hw0 : 0 < wP := by
    cases P with
    | nil => simp at h0
    | cons a t =>
      cases t with
      | nil => simp at hlen
      | cons b t2 =>
        simp at h0
        have hb : 0 < b := by
          have := (List.sorted_cons.1 hs).1 b (List.mem_cons_self _ _)
          omega
        have := hwle b (List.mem_cons_of_mem _ (List.mem_cons_self _ _))
        omega
  have habsw : |wP - (0 : Int)| = wP := by
    rw [sub_zero]
    exact abs_of_nonneg (le_of_lt hw0)
  have hwmem2 : wP ∈ P.erase 0 := by
    rw [List.Nodup.mem_erase_iff hnodup]
    exact ⟨by omega, hwmem⟩
  have hmemq0 : ∀ x ∈ (P.erase 0).erase wP, x ≠ wP ∧ x ≠ 0 ∧ x ∈ P := by
    intro x hx
    have h1 := (List.Nodup.mem_erase_iff (hnodup.erase 0)).1 hx
    have h2 := (List.Nodup.mem_erase_iff hnodup).1 h1.2
    exact ⟨h1.1, h2.1, h2.2⟩
  have hq0nodup : ((P.erase 0).erase wP).Nodup := (hnodup.erase 0).erase wP
  have hPperm : P.Perm (0 :: wP :: (P.erase 0).erase wP) :=
    (List.perm_cons_erase h0mem).trans (List.Perm.cons 0 (List.perm_cons_erase hwmem2))
  have hpd_expand : pairsDists (0 :: wP :: (P.erase 0).erase wP) =
      (wP :: calculate_distances 0 ((P.erase 0).erase wP)) ++
        (calculate_distances wP ((P.erase 0).erase wP) ++
          pairsDists ((P.erase 0).erase wP)) := by
    show (|wP - (0 : Int)| :: calculate_distances 0 ((P.erase 0).erase wP)) ++ _ = _
    rw [habsw]
    rfl
  have hnm1 : wP ∉ calculate_distances 0 ((P.erase 0).erase wP) := by
    intro hmm
    rcases List.mem_map.1 hmm with ⟨x, hx, hval⟩
    have hb := hmemq0 x hx
    have hx0 := hposall x hb.2.2
    rw [sub_zero, abs_of_nonneg hx0] at hval
    exact hb.1 hval
  have hnm2 : wP ∉ calculate_distances wP ((P.erase 0).erase wP) := by
    intro hmm
    rcases List.mem_map.1 hmm with ⟨x, hx, hval⟩
    have hb := hmemq0 x hx
    have hxle := hwle x hb.2.2
    have hx0 := hposall x hb.2.2
    have habs : |x - wP| = wP - x := by
      rw [abs_sub_comm]
      exact abs_of_nonneg (by omega)
    rw [habs] at hval
    have : x = 0 := by omega
    exact hb.2.1 this
  have hnm3 : wP ∉ pairsDists ((P.erase 0).erase wP) := by
    intro hmm
    rcases pd_mem hmm with ⟨a, ha, bb, hbb, hval⟩
    have hba := hmemq0 a ha
    have hbb2 := hmemq0 bb hbb
    have h1 := hposall a hba.2.2
    have h2 := hposall bb hbb2.2.2
    have h3 := hwle a hba.2.2
    have h4 := hwle bb hbb2.2.2
    have ha0 : a ≠ 0 := hba.2.1
    have hbw : bb ≠ wP := hbb2.1
    have hb0 : bb ≠ 0 := hbb2.2.1
    have haw : a ≠ wP := hba.1
    rcases abs_cases (bb - a) with ⟨heq, hsign⟩ | ⟨heq, hsign⟩ <;> rw [heq] at hval <;> omega
  have hf1 : (calculate_distances 0 ((P.erase 0).erase wP)).filter
      (fun d => decide (d ≠ wP)) = calculate_distances 0 ((P.erase 0).erase wP) :=
    List.filter_eq_self.2 (fun a ha => decide_eq_true (fun hh => hnm1 (hh ▸ ha)))
  have hf2 : (calculate_distances wP ((P.erase 0).erase wP)).filter
      (fun d => decide (d ≠ wP)) = calculate_distances wP ((P.erase 0).erase wP) :=
    List.filter_eq_self.2 (fun a ha => decide_eq_true (fun hh => hnm2 (hh ▸ ha)))
  have hf3 : (pairsDists ((P.erase 0).erase wP)).filter
      (fun d => decide (d ≠ wP)) = pairsDists ((P.erase 0).erase wP) :=
    List.filter_eq_self.2 (fun a ha => decide_eq_true (fun hh => hnm3 (hh ▸ ha)))
  have hfilter : (pairsDists (0 :: wP :: (P.erase 0).erase wP)).filter
      (fun d => decide (d ≠ wP)) =
      calculate_distances 0 ((P.erase 0).erase wP) ++
        (calculate_distances wP ((P.erase 0).erase wP) ++
          pairsDists ((P.erase 0).erase wP)) := by
    rw [hpd_expand, List.filter_append, List.filter_append, hf2, hf3]
    congr 1
    rw [List.filter_cons]
    simp only [ne_eq, not_true_eq_false, Bool.false_eq_true, if_false]
    simp only [decide_False]
    rw [if_neg (by simp)]
    rw [hf1]
  have hDLperm : (all_pairwise_distances P).Perm
      (pairsDists (0 :: wP :: (P.erase 0).erase wP)) := by
    unfold all_pairwise_distances
    exact ((sortInts_perm _).trans (pairsDists_perm (sortInts_perm P))).trans
      (pairsDists_perm hPperm)
  have hmaxDL : listMax? (all_pairwise_distances P) = some wP := by
    apply listMax?_eq_some
    · apply hDLperm.mem_iff.2
      rw [hpd_expand]
      exact List.mem_append.2 (Or.inl (List.mem_cons_self _ _))
    · intro x hx
      have hx2 : x ∈ pairsDists P :=
        (pairsDists_perm hPperm).mem_iff.2 (hDLperm.mem_iff.1 hx)
      rcases pd_mem hx2 with ⟨a, ha, bb, hbb, hval⟩
      have h1 := hposall a ha
      have h2 := hposall bb hbb
      have h3 := hwle a ha
      have h4 := hwle bb hbb
      rcases abs_cases (bb - a) with ⟨heq, hsign⟩ | ⟨heq, hsign⟩ <;> rw [heq] at hval <;> omega
  have hds0perm : ((all_pairwise_distances P).filter (fun d => decide (d ≠ wP))).Perm
      (calculate_distances 0 ((P.erase 0).erase wP) ++
        (calculate_distances wP ((P.erase 0).erase wP) ++
          pairsDists ((P.erase 0).erase wP))) := by
    rw [← hfilter]
    exact hDLperm.filter _
  have hcross : (↑(crossDists ((P.erase 0).erase wP) [0, wP]) : Multiset Int) =
      ↑(calculate_distances 0 ((P.erase 0).erase wP)) +
        ↑(calculate_distances wP ((P.erase 0).erase wP)) := by
    rw [cross_cons_right, cross_cons_right, crossDists_nil_right]
    rw [show ((P.erase 0).erase wP).map (fun a => |(0 : Int) - a|) =
        calculate_distances 0 ((P.erase 0).erase wP) from
      List.map_congr_left (fun a _ => abs_sub_comm 0 a)]
    rw [show ((P.erase 0).erase wP).map (fun a => |wP - a|) =
        calculate_distances wP ((P.erase 0).erase wP) from
      List.map_congr_left (fun a _ => abs_sub_comm wP a)]
    rw [Multiset.coe_nil, add_zero]
  have hpd2 : pairsDists [0, wP] = [wP] := by
    show [|wP - (0 : Int)|] = [wP]
    rw [habsw]
  rcases create_spec ((all_pairwise_distances P).filter (fun d => decide (d ≠ wP))) with
    ⟨hcpos, hcknd, hcmul⟩
  have hds0mul : (↑((all_pairwise_distances P).filter (fun d => decide (d ≠ wP))) :
      Multiset Int) =
      ↑(calculate_distances 0 ((P.erase 0).erase wP)) +
        (↑(calculate_distances wP ((P.erase 0).erase wP)) +
          ↑(pairsDists ((P.erase 0).erase wP))) := by
    rw [Multiset.coe_eq_coe.2 hds0perm, ← Multiset.coe_add, ← Multiset.coe_add]
  have hDLmul : (↑(all_pairwise_distances P) : Multiset Int) =
      {wP} + (↑(calculate_distances 0 ((P.erase 0).erase wP)) +
        (↑(calculate_distances wP ((P.erase 0).erase wP)) +
          ↑(pairsDists ((P.erase 0).erase wP)))) := by
    rw [Multiset.coe_eq_coe.2 hDLperm, hpd_expand]
    rw [← Multiset.coe_add, ← Multiset.coe_add, ← Multiset.cons_coe, ← Multiset.singleton_add]
    abel
  refine ⟨wP, hmaxDL, ⟨hcpos, hcknd, ?_⟩, ?_⟩
  · show toMultiset _ + ↑(pairsDists [0, wP]) = _
    rw [hcmul, hpd2, hds0mul, hDLmul]
    rw [show (↑([wP] : List Int) : Multiset Int) = {wP} from rfl]
    abel
  · refine ⟨hcpos, hcknd, List.mem_cons_self _ _,
      List.mem_cons_of_mem _ (List.mem_cons_self _ _), ?_,
      (P.erase 0).erase wP, hq0nodup, ?_, ?_⟩
    · intro x hx
      rcases List.mem_cons.1 hx with rfl | hx2
      · omega
      · simp at hx2
        rw [hx2]
        omega
    · intro x hx
      have hb := hmemq0 x hx
      have h1 := hposall x hb.2.2
      have h2 := hwle x hb.2.2
      refine ⟨?_, h1, h2⟩
      intro hmm
      rcases List.mem_cons.1 hmm with rfl | hmm2
      · exact hb.2.1 rfl
      · simp at hmm2
        exact hb.1 hmm2
    · rw [hcmul, hds0mul, hcross]
      abel

/-! ### Remaining helper lemmas -/

theorem loopStep_next_entries {w : Int} {stack stack2 : List (Counts × List Int)}
    (hstep : loopStep w stack = StepRes.next stack2) :
    ∃ cc cp rest pushes, stack = (cc, cp) :: rest ∧ sumValues cc ≠ 0 ∧
      stepEntry w cc cp = some pushes ∧ stack2 = pushes.reverse ++ rest := by
  cases stack with
  | nil => simp [loopStep] at hstep
  | cons e rest =>
    rcases e with ⟨cc, cp⟩
    by_cases hz : sumValues cc = 0
    · simp [loopStep, hz] at hstep
    · rcases hp : stepEntry w cc cp with _ | pushes
      · simp [loopStep, hz, hp] at hstep
      · refine ⟨cc, cp, rest, pushes, rfl, hz, hp, ?_⟩
        simp [loopStep, hz, hp] at hstep
        exact hstep.symm

theorem loop_points_inv (w : Int) :
    ∀ (fuel : Nat) (stack : List (Counts × List Int)) (ps : List Int),
      (∀ e ∈ stack, posVals e.1 ∧ PtsInv w e.2) →
      find_solution_loop w fuel stack = SearchOutcome.found ps →
      0 ∈ ps ∧ w ∈ ps ∧ ps.Nodup := by
  intro fuel
  induction fuel with
  | zero =>
    intro stack ps hinv hf
    simp [find_solution_loop] at hf
  | succ n ih =>
    intro stack ps hinv hf
    cases stack with
    | nil => simp [find_solution_loop, loopStep] at hf
    | cons e rest =>
      rcases e with ⟨cc, cp⟩
      have hhead := hinv (cc, cp) (List.mem_cons_self _ _)
      have hheadpos : posVals cc := hhead.1
      have hheadpts : PtsInv w cp := hhead.2
      by_cases hz : sumValues cc = 0
      · have hps : ps = sortInts cp := by
          simp [find_solution_loop, loopStep, hz] at hf
          exact hf.symm
        subst hps
        have hperm := sortInts_perm cp
        exact ⟨hperm.mem_iff.2 hheadpts.1, hperm.mem_iff.2 hheadpts.2.1,
          (hperm.nodup_iff).2 hheadpts.2.2⟩
      · rcases hp : stepEntry w cc cp with _ | pushes
        · simp [find_solution_loop, loopStep, hz, hp] at hf
        · have hf2 : find_solution_loop w n (pushes.reverse ++ rest) =
              SearchOutcome.found ps := by
            simpa [find_solution_loop, loopStep, hz, hp] using hf
          apply ih _ ps ?_ hf2
          intro e2 he2
          rcases List.mem_append.1 he2 with h2 | h2
          · rcases stepEntry_child hheadpos hp (List.mem_reverse.1 h2) with
              ⟨cand, c3, rfl, hnot, _, hpos3, _, _, _⟩
            refine ⟨hpos3, List.mem_append.2 (Or.inl hheadpts.1),
              List.mem_append.2 (Or.inl hheadpts.2.1), ?_⟩
            rw [List.nodup_append]
            refine ⟨hheadpts.2.2, List.nodup_singleton _, ?_⟩
            rw [List.disjoint_singleton]
            exact hnot
          · exact hinv e2 (List.mem_cons_of_mem _ h2)

theorem sortInts_pair {d : Int} (hd : 0 ≤ d) : sortInts [0, d] = [0, d] := by
  unfold sortInts
  simp [List.insertionSort, List.orderedInsert, hd]

theorem tryMapTokens_none (ts : List (List Char)) :
    tryMapTokens ts = none ↔ ∃ t ∈ ts, pyIntCore (pyStrip t) = none := by
  induction ts with
  | nil => simp [tryMapTokens]
  | cons t rest ih =>
    rcases hp : pyIntCore (pyStrip t) with _ | v
    · constructor
      · intro _
        exact ⟨t, List.mem_cons_self _ _, hp⟩
      · intro _
        simp [tryMapTokens, hp]
    · rcases hr : tryMapTokens rest with _ | vs
      · constructor
        · intro _
          rcases ih.1 hr with ⟨t2, hm, hbad⟩
          exact ⟨t2, List.mem_cons_of_mem _ hm, hbad⟩
        · intro _
          simp [tryMapTokens, hp, hr]
      · constructor
        · intro h
          simp [tryMapTokens, hp, hr] at h
        · intro hex
          rcases hex with ⟨t2, hm, hbad⟩
          rcases List.mem_cons.1 hm with rfl | hm2
          · rw [hp] at hbad
            exact absurd hbad (by simp)
          · have hcontra : tryMapTokens rest = none := ih.2 ⟨t2, hm2, hbad⟩
            rw [hr] at hcontra
            exact absurd hcontra (by simp)

/-! ### Claim theorems -/

/-- C1: the claim that a returned point list always reproduces the input
multiset fails on the code: `partial_digest` strips every occurrence of the
width, so on input `[4, 4]` it claims success with `[0, 4]`, whose pairwise
distances are `[4]`, not `[4, 4]`.  This theorem evaluates the code at that
failing input. -/
theorem C1_output_distances_mismatch_eval :
    partial_digest 1 [4, 4] = SearchOutcome.found [0, 4] ∧
    all_pairwise_distances [0, 4] = [4] ∧
    Multiset.ofList ([4] : List Int) ≠ Multiset.ofList ([4, 4] : List Int) :=
  ⟨by decide, by decide, by decide⟩

/-- C2: the claim that the width is removed exactly once fails on the code:
the comprehension `[d for d in fragment_lengths if d != width]` removes every
occurrence of the width.  On `[4, 4]` the code hands `find_solution` the empty
list, while removing one occurrence of the width 4 would leave `[4]`. -/
theorem C2_width_filter_removes_all_eval :
    digestInit [4, 4] = some (4, [], [0, 4]) ∧
    ([4, 4] : List Int).erase 4 = [4] ∧
    ([] : List Int) ≠ ([4] : List Int) :=
  ⟨by decide, by decide, by decide⟩

/-- C3: round trip.  For every sorted duplicate-free list of non-negative
integers starting at 0 with at least two elements, running `partial_digest`
on its pairwise distances succeeds (for all sufficiently large fuel) with a
point list whose pairwise distances form the same multiset. -/
theorem C3_round_trip (P : List Int) (hs : P.Sorted (· < ·)) (h0 : P.head? = some 0)
    (hlen : 2 ≤ P.length) :
    ∃ fuel0 : Nat, ∀ fuel, fuel0 ≤ fuel → ∃ P2,
      partial_digest fuel (all_pairwise_distances P) = SearchOutcome.found P2 ∧
      Multiset.ofList (all_pairwise_distances P2) =
        Multiset.ofList (all_pairwise_distances P) := by
  rcases round_trip_setup P hs h0 hlen with ⟨wP, hmax, hES, hVi⟩
  refine ⟨stackPhi [(create_distance_counts
    ((all_pairwise_distances P).filter (fun d => decide (d ≠ wP))), [0, wP])] + 1,
    fun fuel hf => ?_⟩
  have hpd : partial_digest fuel (all_pairwise_distances P) =
      find_solution_loop wP fuel [(create_distance_counts
        ((all_pairwise_distances P).filter (fun d => decide (d ≠ wP))), [0, wP])] := by
    unfold partial_digest digestInit
    rw [hmax]
    rfl
  have hstackinv : ∀ e ∈ [(create_distance_counts
      ((all_pairwise_distances P).filter (fun d => decide (d ≠ wP))), [0, wP])],
      EntrySound (↑(all_pairwise_distances P)) e ∧ e.2 ≠ [] := by
    intro e he
    rw [List.mem_singleton.1 he]
    exact ⟨hES, by simp⟩
  have hstackvi : ∃ e ∈ [(create_distance_counts
      ((all_pairwise_distances P).filter (fun d => decide (d ≠ wP))), [0, wP])],
      Viable wP e.1 e.2 :=
    ⟨_, List.mem_singleton.2 rfl, hVi⟩
  rcases loop_master wP (↑(all_pairwise_distances P)) fuel _ hstackinv hstackvi
    (by omega) with ⟨ps, hfound, hmul⟩
  exact ⟨ps, by rw [hpd]; exact hfound, hmul⟩

/-- C3 witness: instantiation at the concrete point list `[0, 2]`. -/
theorem C3_round_trip_witness :
    List.Sorted (· < ·) ([0, 2] : List Int) ∧
    ([0, 2] : List Int).head? = some 0 ∧ 2 ≤ ([0, 2] : List Int).length ∧
    ∃ fuel0 : Nat, ∀ fuel, fuel0 ≤ fuel → ∃ P2,
      partial_digest fuel (all_pairwise_distances [0, 2]) = SearchOutcome.found P2 ∧
      Multiset.ofList (all_pairwise_distances P2) =
        Multiset.ofList (all_pairwise_distances [0, 2]) :=
  ⟨by decide, by decide, by decide,
    C3_round_trip [0, 2] (by decide) (by decide) (by decide)⟩

/-- C4: every child entry pushed by one step of `find_solution` carries a
counts dictionary whose value sum is exactly the parent's sum minus the
number of points in the parent's point list, hence strictly smaller. -/
theorem C4_child_sum_decreases (w : Int) (cc : Counts) (cp : List Int)
    (pushes : List (Counts × List Int)) (e : Counts × List Int)
    (hpos : posVals cc) (hp : stepEntry w cc cp = some pushes) (he : e ∈ pushes) :
    sumValues e.1 = sumValues cc - cp.length ∧
    (cp ≠ [] → sumValues e.1 < sumValues cc) := by
  rcases stepEntry_child hpos hp he with ⟨cand, c3, rfl, _, _, _, _, hsum3, _⟩
  refine ⟨hsum3, fun hne => ?_⟩
  have hlen : 0 < cp.length := List.length_pos.2 hne
  have : sumValues (c3, cp ++ [cand]).1 = sumValues cc - cp.length := hsum3
  omega

/-- C4 witness: a concrete accepted branch. -/
theorem C4_child_sum_decreases_witness :
    posVals [((2 : Int), (1 : Int)), (1, 1)] ∧
    stepEntry 3 [((2 : Int), (1 : Int)), (1, 1)] [0, 3] =
      some [(([] : Counts), [0, 3, 2]), ([], [0, 3, 1])] ∧
    ((([] : Counts), [(0 : Int), 3, 2]) ∈
      [(([] : Counts), [(0 : Int), 3, 2]), ([], [0, 3, 1])]) ∧
    (sumValues (([] : Counts), [(0 : Int), 3, 2]).1 =
        sumValues [((2 : Int), (1 : Int)), (1, 1)] - ([0, 3] : List Int).length ∧
      (([0, 3] : List Int) ≠ [] →
        sumValues (([] : Counts), [(0 : Int), 3, 2]).1 <
          sumValues [((2 : Int), (1 : Int)), (1, 1)])) :=
  ⟨by decide, by decide, by decide,
    C4_child_sum_decreases 3 [((2 : Int), (1 : Int)), (1, 1)] [0, 3]
      [(([] : Counts), [0, 3, 2]), ([], [0, 3, 1])] (([] : Counts), [(0 : Int), 3, 2])
      (by decide) (by decide) (by decide)⟩

/-- C5: the positive-count invariant: the initial mapping built by
`create_distance_counts` maps every key to a strictly positive count, and
every counts mapping in a stack produced by one loop iteration from a stack
of positive-count mappings again has only strictly positive counts (zero
counts are filtered out, never stored). -/
theorem C5_counts_positive_invariant :
    (∀ ds : List Int, posVals (create_distance_counts ds)) ∧
    (∀ (w : Int) (stack stack2 : List (Counts × List Int)),
      (∀ e ∈ stack, posVals e.1) → loopStep w stack = StepRes.next stack2 →
      ∀ e ∈ stack2, posVals e.1) := by
  constructor
  · intro ds
    exact (create_spec ds).1
  · intro w stack stack2 hinv hstep
    rcases loopStep_next_entries hstep with ⟨cc, cp, rest, pushes, rfl, hz, hp, rfl⟩
    intro e2 he2
    rcases List.mem_append.1 he2 with h2 | h2
    · rcases stepEntry_child (hinv (cc, cp) (List.mem_cons_self _ _)) hp
        (List.mem_reverse.1 h2) with ⟨cand, c3, rfl, _, _, hpos3, _, _, _⟩
      exact hpos3
    · exact hinv e2 (List.mem_cons_of_mem _ h2)

/-- C5 witness: a concrete loop iteration. -/
theorem C5_counts_positive_invariant_witness :
    (∀ e ∈ ([([((2 : Int), (1 : Int)), (1, 1)], [0, 3])] :
      List (Counts × List Int)), posVals e.1) ∧
    loopStep 3 [([((2 : Int), (1 : Int)), (1, 1)], [0, 3])] =
      StepRes.next [(([] : Counts), [0, 3, 1]), ([], [0, 3, 2])] ∧
    ∀ e ∈ ([(([] : Counts), [(0 : Int), 3, 1]), ([], [0, 3, 2])] :
      List (Counts × List Int)), posVals e.1 :=
  ⟨by decide, by decide,
    C5_counts_positive_invariant.2 3 [([((2 : Int), (1 : Int)), (1, 1)], [0, 3])]
      [(([] : Counts), [0, 3, 1]), ([], [0, 3, 2])] (by decide) (by decide)⟩

/-- C6: the point-set invariant: the starter point list holds 0 and the
width and has no duplicates; one loop iteration preserves this for every
stack entry; and every solution `partial_digest` returns contains 0 and the
width and is duplicate-free. -/
theorem C6_points_invariant (fl : List Int) (w : Int)
    (hw : listMax? fl = some w) (hposd : ∀ d ∈ fl, 0 < d) :
    PtsInv w [0, w] ∧
    (∀ (stack stack2 : List (Counts × List Int)),
      (∀ e ∈ stack, posVals e.1 ∧ PtsInv w e.2) →
      loopStep w stack = StepRes.next stack2 →
      ∀ e ∈ stack2, posVals e.1 ∧ PtsInv w e.2) ∧
    (∀ (fuel : Nat) (ps : List Int),
      partial_digest fuel fl = SearchOutcome.found ps →
      0 ∈ ps ∧ w ∈ ps ∧ ps.Nodup) := by
  have hw0 : 0 < w := hposd w (listMax?_mem hw)
  have hPts : PtsInv w [0, w] := by
    refine ⟨List.mem_cons_self _ _, List.mem_cons_of_mem _ (List.mem_cons_self _ _), ?_⟩
    simp [List.nodup_cons]
    omega
  refine ⟨hPts, ?_, ?_⟩
  · intro stack stack2 hinv hstep
    rcases loopStep_next_entries hstep with ⟨cc, cp, rest, pushes, rfl, hz, hp, rfl⟩
    have hhead := hinv (cc, cp) (List.mem_cons_self _ _)
    intro e2 he2
    rcases List.mem_append.1 he2 with h2 | h2
    · rcases stepEntry_child hhead.1 hp (List.mem_reverse.1 h2) with
        ⟨cand, c3, rfl, hnot, _, hpos3, _, _, _⟩
      refine ⟨hpos3, List.mem_append.2 (Or.inl hhead.2.1),
        List.mem_append.2 (Or.inl hhead.2.2.1), ?_⟩
      rw [List.nodup_append]
      refine ⟨hhead.2.2.2, List.nodup_singleton _, ?_⟩
      rw [List.disjoint_singleton]
      exact hnot
    · exact hinv e2 (List.mem_cons_of_mem _ h2)
  · intro fuel ps hf
    have hf2 : find_solution_loop w fuel
        [(create_distance_counts (fl.filter (fun d => decide (d ≠ w))), [0, w])] =
        SearchOutcome.found ps := by
      unfold partial_digest digestInit at hf
      rw [hw] at hf
      exact hf
    apply loop_points_inv w fuel _ ps ?_ hf2
    intro e he
    rw [List.mem_singleton.1 he]
    exact ⟨(create_spec _).1, hPts⟩

/-- C6 witness: a concrete input. -/
theorem C6_points_invariant_witness :
    listMax? [(1 : Int), 2] = some 2 ∧ (∀ d ∈ ([1, 2] : List Int), 0 < d) ∧
    (PtsInv 2 [0, 2] ∧
    (∀ (stack stack2 : List (Counts × List Int)),
      (∀ e ∈ stack, posVals e.1 ∧ PtsInv 2 e.2) →
      loopStep 2 stack = StepRes.next stack2 →
      ∀ e ∈ stack2, posVals e.1 ∧ PtsInv 2 e.2) ∧
    (∀ (fuel : Nat) (ps : List Int),
      partial_digest fuel [1, 2] = SearchOutcome.found ps →
      0 ∈ ps ∧ 2 ∈ ps ∧ ps.Nodup)) :=
  ⟨by decide, by decide, C6_points_invariant [1, 2] 2 (by decide) (by decide)⟩

/-- C7: `can_remove_distances` returns true exactly when every value of the
batch is present in the mapping with a count at least its repeat count in the
batch.  (The embedding is pure, so the mapping argument is never mutated:
the Python code operates on a copy.) -/
theorem C7_can_remove_characterization (batch : List Int) (counts : Counts) :
    can_remove_distances batch counts = true ↔
      ∀ v ∈ batch, ∃ c, getVal? counts v = some c ∧ (batch.count v : Int) ≤ c :=
  can_remove_iff batch counts

/-- C8: the `max(curr_counts.keys())` query never raises: the embedded loop
never reaches the `error` outcome (the emptiness test `sum == 0` is checked
first), and with the positive-count dictionaries the search always
terminates when given a non-empty starter point list. -/
theorem C8_max_never_raises_and_total (w : Int) (ds : List Int) (pts : List Int) :
    (∀ fuel, find_solution w fuel ds pts ≠ SearchOutcome.error) ∧
    (pts ≠ [] → ∃ fuel0, ∀ fuel, fuel0 ≤ fuel →
      find_solution w fuel ds pts ≠ SearchOutcome.outOfFuel) := by
  constructor
  · intro fuel
    exact find_solution_loop_ne_error w fuel _
  · intro hne
    refine ⟨stackPhi [(create_distance_counts ds, pts)] + 1, fun fuel hf => ?_⟩
    apply find_solution_loop_halts
    · intro e he
      rw [List.mem_singleton.1 he]
      exact ⟨(create_spec ds).1, hne⟩
    · omega

/-- C8 witness: a concrete invocation. -/
theorem C8_max_never_raises_and_total_witness :
    (∀ fuel, find_solution 3 fuel [1, 2] [0, 3] ≠ SearchOutcome.error) ∧
    (([0, 3] : List Int) ≠ [] ∧
      ∃ fuel0, ∀ fuel, fuel0 ≤ fuel →
        find_solution 3 fuel [1, 2] [0, 3] ≠ SearchOutcome.outOfFuel) :=
  ⟨(C8_max_never_raises_and_total 3 [1, 2] [0, 3]).1,
    by decide, (C8_max_never_raises_and_total 3 [1, 2] [0, 3]).2 (by decide)⟩

/-- C9: degenerate cases: the empty input yields the no-solution signal
immediately, and a single positive distance `d` yields the two-point
solution `[0, d]`. -/
theorem C9_degenerate_cases :
    (∀ fuel, partial_digest fuel [] = SearchOutcome.noSolution) ∧
    (∀ (d : Int) (fuel : Nat), 0 < d → 1 ≤ fuel →
      partial_digest fuel [d] = SearchOutcome.found [0, d]) := by
  constructor
  · intro fuel
    rfl
  · intro d fuel hd hf
    rcases fuel with _ | n
    · omega
    · have h1 : digestInit [d] = some (d, [], [0, d]) := by
        unfold digestInit
        rw [show listMax? [d] = some d from rfl]
        simp
      show partial_digest (n + 1) [d] = _
      unfold partial_digest
      rw [h1]
      show find_solution_loop d (n + 1) [(create_distance_counts [], [0, d])] = _
      have h2 : find_solution_loop d (n + 1) [(create_distance_counts [], [0, d])] =
          SearchOutcome.found (sortInts [0, d]) := by
        simp [find_solution_loop, loopStep, sumValues, create_distance_counts]
      rw [h2, sortInts_pair (le_of_lt hd)]

/-- C9 witness: concrete degenerate inputs. -/
theorem C9_degenerate_cases_witness :
    partial_digest 0 [] = SearchOutcome.noSolution ∧
    (0 : Int) < 5 ∧ (1 : Nat) ≤ 1 ∧
    partial_digest 1 [5] = SearchOutcome.found [0, 5] :=
  ⟨C9_degenerate_cases.1 0, by decide, by decide,
    C9_degenerate_cases.2 5 1 (by decide) (by decide)⟩

/-- C10 counterexample: the claim says every string with wrong bracket
structure is rejected, but `extract_array_from_input` strips the first and
last characters without checking them: the parenthesised string (1,2) is
accepted and parsed as the list with entries 1 and 2. -/
theorem C10_wrong_brackets_accepted :
    extract_array_from_input "(1,2)" = some [1, 2] ∧
    "(1,2)".data.head? ≠ some '[' :=
  ⟨by decide, by decide⟩

/-- C10 amended: for ASCII input (the scope on which the parsing model is
faithful to Python, whose `strip` and `int` additionally handle non-ASCII
whitespace and numerals), `extract_array_from_input` returns the absence
signal exactly when the slice between the first and last characters of the
whitespace-trimmed input is non-empty and one of its comma-separated tokens
fails integer parsing; bracket structure itself is never validated. -/
theorem C10_failure_characterization (s : String)
    (hascii : ∀ c ∈ s.data, c.toNat < 128) :
    extract_array_from_input s = none ↔
      (pyInterior s ≠ [] ∧
        ∃ t ∈ splitComma (pyInterior s), pyIntCore (pyStrip t) = none) := by
  unfold extract_array_from_input
  by_cases hc : pyInterior s = []
  · simp [hc]
  · rw [if_neg hc]
    constructor
    · intro h
      exact ⟨hc, (tryMapTokens_none _).1 h⟩
    · intro h
      exact (tryMapTokens_none _).2 h.2

/-- C10 amended witness: instantiation at the ASCII string with a
non-numeric token, for which the absence signal is returned. -/
theorem C10_failure_characterization_witness :
    (∀ c ∈ "[1, a]".data, c.toNat < 128) ∧
    (extract_array_from_input "[1, a]" = none ↔
      (pyInterior "[1, a]" ≠ [] ∧
        ∃ t ∈ splitComma (pyInterior "[1, a]"), pyIntCore (pyStrip t) = none)) :=
  ⟨by decide, C10_failure_characterization "[1, a]" (by decide)⟩
